import Mathlib

/-!
cloc: a recursive line counter.

A shallow embedding of `main.go`: the filter `isValid`, the walker
`countLinesInDirectory` with `countLinesInFile`, and the reporter
`printResults` with `main`.

Modelling conventions.

* A Go `string` and a `[]byte` are sequences of bytes: `List Nat`.  String
  literals of the source are written `go "..."`, their UTF-8 bytes.
* Go's `int` counters are `Nat`.  A count is bounded by the number of bytes
  read plus one per file, far below `2^63`, so wrap-around is not modelled.
* The operating system is a parameter `FS`: what `os.ReadDir` and
  `os.ReadFile` answer for each path string.  `none` is a failed call; a
  failed `os.ReadFile` hands no bytes to the caller.
* The library functions `path.Base`, `path.Clean`, `path.Join`,
  `filepath.Ext` (Unix separator), `strings.HasPrefix`, `strings.Contains`
  are transcribed from the Go standard library.
* The recursion of `countLinesInDirectory` follows the file system, which is
  an arbitrary function here, so it carries a depth budget (`fuel`); `none`
  means the budget ran out, `some none` is Go's `nil`.
* Standard output is the list of the writes made, one item per
  `fmt.Printf` / `fmt.Println` call, each with its final line feed.
-/

namespace Cloc

/-! ## Strings -/

/-- Go strings and byte slices: sequences of bytes. -/
abbrev GoString := List Nat

/-- UTF-8 bytes of one code point. -/
def utf8EncodeChar (c : Nat) : List Nat :=
  if c < 0x80 then [c]
  else if c < 0x800 then [0xC0 + c / 64, 0x80 + c % 64]
  else if c < 0x10000 then [0xE0 + c / 4096, 0x80 + c / 64 % 64, 0x80 + c % 64]
  else [0xF0 + c / 262144, 0x80 + c / 4096 % 64, 0x80 + c / 64 % 64, 0x80 + c % 64]

/-- The bytes of a Go string literal. -/
def go (s : String) : GoString := s.toList.flatMap (fun c => utf8EncodeChar c.toNat)

/-- The byte `'/'`. -/
abbrev slash : Nat := 47

/-- The byte `'.'`. -/
abbrev dot : Nat := 46

/-- The byte `'\n'`. -/
abbrev lf : Nat := 10

/-- Go `strings.HasPrefix(s, pre)`: `len(s) >= len(pre) && s[:len(pre)] == pre`. -/
def HasPrefix (s pre : GoString) : Bool :=
  decide (pre.length ≤ s.length) && decide (s.take pre.length = pre)

/-- Go `strings.Contains(s, substr)`: `substr` occurs at some index of `s`. -/
def Contains (s substr : GoString) : Bool :=
  s.tails.any (fun t => HasPrefix t substr)

/-- Go `slices.Contains(list, v)`. -/
def slicesContains (list : List GoString) (v : GoString) : Bool :=
  list.any (fun x => decide (x = v))

/-! ## Package `path` -/

/-- Go `LastIndexByteString(s, c)`: index of the last `c` in `s`, `none` for `-1`. -/
def LastIndexByte : GoString → Nat → Option Nat
  | [], _ => none
  | b :: s, c =>
    match LastIndexByte s c with
    | some i => some (i + 1)
    | none => if b = c then some 0 else none

/-- Go `path.Base`. -/
def Base (path : GoString) : GoString :=
  if path = [] then [dot]
  else
    -- Strip trailing slashes.
    let path1 := path.rdropWhile (fun b => b == slash)
    -- Find the last element.
    let path2 :=
      match LastIndexByte path1 slash with
      | some i => path1.drop (i + 1)
      | none => path1
    -- If empty now, it had only slashes.
    if path2 = [] then [slash] else path2

/-- Loop of Go `filepath.Ext`: `rev` holds the bytes `path[i], path[i-1], ...` still
to scan, `suf` is `path[i+1:]`. -/
def extLoop : List Nat → GoString → GoString
  | [], _ => []
  | b :: rev, suf =>
    if b = slash then []
    else if b = dot then b :: suf
    else extLoop rev (b :: suf)

/-- Go `filepath.Ext` (with `/` the path separator). -/
def Ext (path : GoString) : GoString := extLoop path.reverse []

/-- Inner loop of the `..` case of `path.Clean`:
`for out.w > dotdot && out.index(out.w) != '/' { out.w-- }`. -/
def backtrack (out : GoString) (dotdot : Nat) : Nat → Nat
  | 0 => 0
  | w + 1 => if dotdot < w + 1 ∧ out.getD (w + 1) 0 ≠ slash then backtrack out dotdot w else w + 1

/-- Main loop of Go `path.Clean`.  `rest` is `path[r:]`, `out` is the buffer
`out[0:w]`, `fuel` bounds the number of iterations. -/
def cleanLoop (rooted : Bool) : Nat → GoString → GoString → Nat → GoString
  | 0, _, out, _ => out
  | fuel + 1, rest, out, dotdot =>
    match rest with
    | [] => out
    | c :: t =>
      if c = slash then
        -- empty path element
        cleanLoop rooted fuel t out dotdot
      else if c = dot ∧ (t = [] ∨ t.head? = some slash) then
        -- . element
        cleanLoop rooted fuel t out dotdot
      else if c = dot ∧ t.head? = some dot ∧ (t.tail = [] ∨ t.tail.head? = some slash) then
        -- .. element: remove to last /
        if dotdot < out.length then
          -- can backtrack
          cleanLoop rooted fuel t.tail (out.take (backtrack out dotdot (out.length - 1))) dotdot
        else if !rooted then
          -- cannot backtrack, but not rooted, so append .. element
          let out1 := (if 0 < out.length then out ++ [slash] else out) ++ [dot, dot]
          cleanLoop rooted fuel t.tail out1 out1.length
        else
          cleanLoop rooted fuel t.tail out dotdot
      else
        -- real path element: add slash if needed, then copy the element
        let out1 :=
          if (rooted && out.length != 1) || (!rooted && out.length != 0) then out ++ [slash]
          else out
        cleanLoop rooted fuel (rest.dropWhile (fun b => b != slash))
          (out1 ++ rest.takeWhile (fun b => b != slash)) dotdot

/-- Go `path.Clean`.  Every iteration of the loop reads at least one byte, so
`len(path)` iterations are enough. -/
def Clean (path : GoString) : GoString :=
  if path = [] then [dot]
  else
    let rooted := decide (path.head? = some slash)
    let out :=
      if rooted then cleanLoop rooted path.length (path.drop 1) [slash] 1
      else cleanLoop rooted path.length path [] 0
    -- Turn empty string into "."
    if out.length = 0 then [dot] else out

/-- Buffer loop of Go `path.Join`: the non-empty elements separated by `/`. -/
def joinBuf : GoString → List GoString → GoString
  | buf, [] => buf
  | buf, e :: es =>
    if 0 < buf.length ∨ e ≠ [] then
      joinBuf ((if 0 < buf.length then buf ++ [slash] else buf) ++ e) es
    else joinBuf buf es

/-- Go `path.Join`. -/
def Join (elems : List GoString) : GoString :=
  if (elems.map List.length).sum = 0 then []
  else Clean (joinBuf [] elems)

/-! ## The filter -/

/-- The extension denylist of `isValid`. -/
def deniedExtensions : List GoString :=
  [go ".gz", go ".json", go ".zip", go ".toml", go ".jpg", go ".jpeg", go ".png", go ".1",
   go ".md", go ".rst", go ".sh", go ".fish", go ".txt", go ".ttf", go ".css", go ".ico",
   go ".zsh", go ".ps1", go ".gap", go ".py", go ".just", go ".snap"]

/-- The function `isValid` of `main.go`. -/
def isValid (filename : GoString) : Bool :=
  let filename := Base filename
  if HasPrefix filename (go ".") then false
  else if slicesContains deniedExtensions (Ext filename) then false
  else if Contains filename (go "testdata") then false
  else if Contains filename (go "changelog") then false
  else if Contains filename (go "azure") then false
  else if Contains filename (go "_test") then false
  else if Contains filename (go "tests") then false
  else if Contains filename (go "/doc/") then false
  else if Contains filename (go "Makefile") then false
  else if Contains filename (go "LICENSE") || Contains filename (go "LICENCE") then false
  else if Contains filename (go "VERSION") then false
  else if Contains filename (go "docker") then false
  else true

/-! ## The file system and the walker -/

/-- One `os.DirEntry`: what `Name()` and `IsDir()` return. -/
structure DirEntry where
  Name : GoString
  IsDir : Bool

/-- The answers of the operating system.  `none` is a non-nil `err`. -/
structure FS where
  ReadDir : GoString → Option (List DirEntry)
  ReadFile : GoString → Option (List Nat)

/-- The type `FileInfo` of `main.go`. -/
structure FileInfo where
  Path : GoString
  Lines : Nat
  IsDir : Bool
  Children : List FileInfo

/-- The counting loop of `countLinesInFile`: `nl` after scanning `content`. -/
def countLoop : List Nat → Nat → Nat
  | [], nl => nl
  | b :: content, nl => if b = lf then countLoop content (nl + 1) else countLoop content nl

/-- The function `countLinesInFile` of `main.go`; the error of `os.ReadFile` is dropped. -/
def countLinesInFile (fs : FS) (filename : GoString) : Nat :=
  let content := (fs.ReadFile filename).getD []
  if content.length = 0 then 0
  else countLoop content 1

/-- The loop `for _, entry := range entries` of `countLinesInDirectory`, with
`recur` the recursive call and `res` the node under construction. -/
def walkEntries (fs : FS) (recur : GoString → Option (Option FileInfo)) (root : GoString) :
    List DirEntry → FileInfo → Option FileInfo
  | [], res => some res
  | entry :: entries, res =>
    let filename := Join [root, entry.Name]
    if !isValid filename then walkEntries fs recur root entries res
    else if entry.IsDir then
      match recur filename with
      | none => none
      | some none => walkEntries fs recur root entries res
      | some (some tmp) =>
        if 0 < tmp.Lines then
          walkEntries fs recur root entries
            { res with Children := res.Children ++ [tmp], Lines := res.Lines + tmp.Lines }
        else walkEntries fs recur root entries res
    else
      let linesInFile := countLinesInFile fs filename
      if 0 < linesInFile then
        let tmp : FileInfo :=
          { Path := filename, Lines := linesInFile, IsDir := false, Children := [] }
        walkEntries fs recur root entries
          { res with Children := res.Children ++ [tmp], Lines := res.Lines + linesInFile }
      else walkEntries fs recur root entries res

/-- The function `countLinesInDirectory` of `main.go`.  The outer `none` is an
exhausted depth budget, `some none` is the `nil` result. -/
def countLinesInDirectory (fs : FS) : Nat → GoString → Option (Option FileInfo)
  | 0, _ => none
  | fuel + 1, root =>
    match fs.ReadDir root with
    | none => some none
    | some entries =>
      if entries.length = 0 then some none
      else
        (walkEntries fs (countLinesInDirectory fs fuel) root entries
          { Path := root, Lines := 0, IsDir := true, Children := [] }).map some

/-! ## The reporter -/

/-- The verb `%d` of `fmt` on a non-negative `int`. -/
def fmtInt (n : Nat) : GoString := go (toString n)

mutual
/-- The function `printResults` of `main.go`; the result is the list of lines written. -/
def printResults : FileInfo → Nat → GoString → Bool → List GoString
  | ⟨Path, Lines, IsDir, Children⟩, level, pfx, isLast =>
    let symbol := if level = 0 then go "" else if isLast then go "└── " else go "├── "
    let displayPath := if 0 < level then Base Path else Path
    let line :=
      if IsDir then pfx ++ symbol ++ displayPath ++ go "/: " ++ fmtInt Lines ++ go "\n"
      else pfx ++ symbol ++ displayPath ++ go ": " ++ fmtInt Lines ++ go "\n"
    let newPrefix :=
      if level = 0 then go "" else if isLast then pfx ++ go "    " else pfx ++ go "│   "
    line :: printChildren Children ((Children.length : Int) - 1) 0 (level + 1) newPrefix
/-- The loop `for i, child := range fi.Children` of `printResults`, from index `i` on. -/
def printChildren : List FileInfo → Int → Nat → Nat → GoString → List GoString
  | [], _, _, _, _ => []
  | child :: rest, l, i, level, newPrefix =>
    printResults child level newPrefix (decide ((i : Int) = l))
      ++ printChildren rest l (i + 1) level newPrefix
end

/-- The root path `main` scans: the first positional argument, `.` without one. -/
def rootPath (args : List GoString) : GoString :=
  match args with
  | [] => go "."
  | a :: _ => a

/-- The function `main` of `main.go`: `silent` is the parsed flag, `args` the
positional arguments; the result is what is written to standard output. -/
def main (fs : FS) (fuel : Nat) (silent : Bool) (args : List GoString) :
    Option (List GoString) :=
  match countLinesInDirectory fs fuel (rootPath args) with
  | none => none
  | some none => some []
  | some (some root) =>
    if silent then some [fmtInt root.Lines ++ go "\n"]
    else some (printResults root 0 (go "") true)

/-! ## Notions used to state the properties -/

/-- An ordinary entry name: non-empty, without `/`, and neither `.` nor `..`. -/
def Regular (name : GoString) : Prop :=
  name ≠ [] ∧ slash ∉ name ∧ name ≠ [dot] ∧ name ≠ [dot, dot]

instance (name : GoString) : Decidable (Regular name) := by
  unfold Regular
  infer_instance

mutual
/-- All nodes strictly below a node, in pre-order. -/
def FileInfo.descendants : FileInfo → List FileInfo
  | ⟨_, _, _, cs⟩ => descendantsList cs
/-- The nodes of a list of trees, each tree in pre-order. -/
def descendantsList : List FileInfo → List FileInfo
  | [] => []
  | c :: cs => (c :: c.descendants) ++ descendantsList cs
end

mutual
/-- For every node strictly below `t`, the chain of nodes that leads to it from a
child of `t`: its ancestors below `t`, top-down, then the node itself. -/
def FileInfo.chains : FileInfo → List (List FileInfo)
  | ⟨_, _, _, cs⟩ => chainsList cs
/-- The chains of a list of trees. -/
def chainsList : List FileInfo → List (List FileInfo)
  | [] => []
  | c :: cs => ([c] :: c.chains.map (fun ch => c :: ch)) ++ chainsList cs
end

/-- A chain of nodes follows the directory listings from `dir` downward: the path of
each node is the joined path of a listed entry of the directory before it. -/
def Linked (fs : FS) : GoString → List FileInfo → Prop
  | _, [] => True
  | dir, n :: ch =>
    (∃ e ∈ (fs.ReadDir dir).getD [], n.Path = Join [dir, e.Name] ∧ n.IsDir = e.IsDir)
      ∧ Linked fs n.Path ch

/-- The directory tree under `root` is at most `depth` levels deep, counting only
the directories the filter accepts: a budget of `depth` lets the walker finish. -/
def fitsDepth (fs : FS) : Nat → GoString → Bool
  | 0, _ => false
  | depth + 1, root =>
    ((fs.ReadDir root).getD []).all (fun e =>
      !(e.IsDir && isValid (Join [root, e.Name])) || fitsDepth fs depth (Join [root, e.Name]))

/-- Directories reached from `root` through a chain of listed directory entries,
each accepted by `isValid` on its joined path. -/
inductive ReachableDir (fs : FS) (root : GoString) : GoString → Prop
  | root : ReachableDir fs root root
  | step (d : GoString) (es : List DirEntry) (e : DirEntry) :
      ReachableDir fs root d → fs.ReadDir d = some es → e ∈ es → e.IsDir = true →
      isValid (Join [d, e.Name]) = true → ReachableDir fs root (Join [d, e.Name])

/-- Files reached from `root`: a listed non-directory entry, accepted by `isValid`
on its joined path, of a directory reached from `root`. -/
def ReachableFile (fs : FS) (root f : GoString) : Prop :=
  ∃ d es e, ReachableDir fs root d ∧ fs.ReadDir d = some es ∧ e ∈ es ∧ e.IsDir = false ∧
    isValid (Join [d, e.Name]) = true ∧ f = Join [d, e.Name]

/-- The reachable files down to `depth` levels, in listing order. -/
def reachableFiles (fs : FS) : Nat → GoString → List GoString
  | 0, _ => []
  | depth + 1, root =>
    ((fs.ReadDir root).getD []).flatMap (fun e =>
      if isValid (Join [root, e.Name]) then
        if e.IsDir then reachableFiles fs depth (Join [root, e.Name])
        else [Join [root, e.Name]]
      else [])

/-- A directory `d` that holds one empty file and nothing else. -/
def emptyFileFS : FS where
  ReadDir := fun p => if p = go "d" then some [⟨go "e.go", false⟩] else none
  ReadFile := fun p => if p = go "d/e.go" then some [] else none

/-- A directory `d` whose listing succeeds and holds no entry. -/
def emptyDirFS : FS where
  ReadDir := fun p => if p = go "d" then some [] else none
  ReadFile := fun _ => none

/-- The segment an ancestor gives to the lines of the nodes below it: four spaces
if it was the last child at its level, a bar and three spaces otherwise. -/
def segment (wasLast : Bool) : GoString := if wasLast then go "    " else go "│   "

/-- The branch glyph of a node: a corner for the last child among its siblings, a
tee otherwise. -/
def glyph (isLast : Bool) : GoString := if isLast then go "└── " else go "├── "

mutual
/-- The chains of `FileInfo.chains`, each node paired with the flag "this node is
the last of the children of its parent". -/
def FileInfo.flaggedChains : FileInfo → List (List (Bool × FileInfo))
  | ⟨_, _, _, cs⟩ => flaggedChainsList cs
/-- The flagged chains of a list of sibling trees. -/
def flaggedChainsList : List FileInfo → List (List (Bool × FileInfo))
  | [] => []
  | c :: rest =>
    ([(rest.isEmpty, c)] :: c.flaggedChains.map (fun ch => (rest.isEmpty, c) :: ch))
      ++ flaggedChainsList rest
end

/-- The line the specification gives the node at the end of a flagged chain: one
segment for each ancestor of the chain, the glyph of the node, the base name of
its path, `/` for a directory, `: `, its count in decimal, and a line feed. -/
def chainLine (ch : List (Bool × FileInfo)) : GoString :=
  match ch.getLast? with
  | none => []
  | some (isLast, n) =>
    ch.dropLast.flatMap (fun a => segment a.1) ++ glyph isLast ++ Base n.Path
      ++ (if n.IsDir then go "/" else go "") ++ go ": " ++ fmtInt n.Lines ++ go "\n"

/-- The number of lines of an output: the line feeds among the bytes written, the
writes taken one after the other. -/
def outputLines (out : List GoString) : Nat := out.flatten.count lf

/-- A root `r` that holds one file whose name has a line feed in it. -/
def lfNameFS : FS where
  ReadDir := fun p => if p = go "r" then some [⟨go "a\nb.go", false⟩] else none
  ReadFile := fun p => if p = go "r/a\nb.go" then some (go "x") else none

/-- The tree the walker builds on `lfNameFS`. -/
def lfNameTree : FileInfo :=
  ⟨go "r", 1, true, [⟨go "r/a\nb.go", 1, false, []⟩]⟩

/-- A tree with a directory that is not the last child: `r` holds the directory
`r/a`, with the file `r/a/f`, and then the file `r/g`. -/
def sampleTree : FileInfo :=
  ⟨go "r", 3, true,
    [⟨go "r/a", 1, true, [⟨go "r/a/f", 1, false, []⟩]⟩, ⟨go "r/g", 2, false, []⟩]⟩

/-- The file node `x: 1` of the rendering scenario. -/
def fileX : FileInfo := ⟨go "root/x", 1, false, []⟩

/-- The file node `y: 2` of the rendering scenario. -/
def fileY : FileInfo := ⟨go "root/y", 2, false, []⟩

/-- The file system with the entries called `name` taken out of the listing of
the directory `d`; everything else answers as before. -/
def removeEntry (fs : FS) (d name : GoString) : FS where
  ReadDir := fun p =>
    if p = d then (fs.ReadDir p).map (fun es => es.filter (fun e => decide (e.Name ≠ name)))
    else fs.ReadDir p
  ReadFile := fs.ReadFile

/-- The entry called `name` of the directory `d` cannot be read: listing it fails if
it is a directory, reading it fails if it is a file. -/
def Unreadable (fs : FS) (d name : GoString) : Prop :=
  ∀ e ∈ (fs.ReadDir d).getD [], e.Name = name →
    (e.IsDir = true → fs.ReadDir (Join [d, e.Name]) = none) ∧
    (e.IsDir = false → fs.ReadFile (Join [d, e.Name]) = none)

/-- What the loop over the entries keeps of the result of a recursive call: a
node with a positive count. -/
def kept (o : Option FileInfo) : Option FileInfo :=
  match o with
  | some t => if 0 < t.Lines then some t else none
  | none => none

/-- A root `r` whose only entry is a directory that cannot be listed. -/
def loneFS : FS where
  ReadDir := fun p => if p = go "r" then some [⟨go "locked", true⟩] else none
  ReadFile := fun _ => none

/-- A root `r` with a readable file, a directory that cannot be listed and a file
that cannot be read. -/
def lockedFS : FS where
  ReadDir := fun p =>
    if p = go "r" then some [⟨go "a.go", false⟩, ⟨go "locked", true⟩, ⟨go "secret.go", false⟩]
    else none
  ReadFile := fun p => if p = go "r/a.go" then some (go "x\ny") else none

/-- The substrings `isValid` looks for, in the order of its checks. -/
def deniedSubstrings : List GoString :=
  [go "testdata", go "changelog", go "azure", go "_test", go "tests", go "/doc/",
   go "Makefile", go "LICENSE", go "LICENCE", go "VERSION", go "docker"]

/-- The scenario of the specification: `a.go` with 3 lines and no final line feed,
an empty `b.go`, and `sub/c.go` with 2 lines, under the directory `proj`. -/
def scenarioFS : FS where
  ReadDir := fun p =>
    if p = go "proj" then some [⟨go "a.go", false⟩, ⟨go "b.go", false⟩, ⟨go "sub", true⟩]
    else if p = go "proj/sub" then some [⟨go "c.go", false⟩]
    else none
  ReadFile := fun p =>
    if p = go "proj/a.go" then some (go "x\ny\nz")
    else if p = go "proj/b.go" then some []
    else if p = go "proj/sub/c.go" then some (go "p\nq")
    else none

/-- The tree the walker builds on `scenarioFS`. -/
def scenarioTree : FileInfo :=
  ⟨go "proj", 5, true,
    [⟨go "proj/a.go", 3, false, []⟩,
     ⟨go "proj/sub", 2, true, [⟨go "proj/sub/c.go", 2, false, []⟩]⟩]⟩

/-! ## Strings and paths: basic facts -/

theorem hasPrefix_iff (s pre : GoString) : HasPrefix s pre = true ↔ pre <+: s := by
  unfold HasPrefix
  simp only [Bool.and_eq_true, decide_eq_true_eq]
  constructor
  · rintro ⟨_, h⟩
    rw [List.prefix_iff_eq_take]
    exact h.symm
  · intro h
    exact ⟨h.length_le, (List.prefix_iff_eq_take.1 h).symm⟩

theorem contains_iff (s sub : GoString) : Contains s sub = true ↔ sub <:+: s := by
  unfold Contains
  rw [List.any_eq_true, List.infix_iff_prefix_suffix]
  constructor
  · rintro ⟨t, ht, hp⟩
    exact ⟨t, (hasPrefix_iff _ _).1 hp, (List.mem_tails _ _).1 ht⟩
  · rintro ⟨t, hp, hs⟩
    exact ⟨t, (List.mem_tails _ _).2 hs, (hasPrefix_iff _ _).2 hp⟩

theorem lastIndexByte_none (s : GoString) (c : Nat) (h : c ∉ s) : LastIndexByte s c = none := by
  induction s with
  | nil => rfl
  | cons b s ih =>
    have hb : b ≠ c := fun e => h (by simp [e])
    have hs : c ∉ s := fun e => h (by simp [e])
    simp [LastIndexByte, ih hs, hb]

theorem lastIndexByte_append (x s : GoString) (c : Nat) (h : c ∉ s) :
    LastIndexByte (x ++ c :: s) c = some x.length := by
  induction x with
  | nil => simp [LastIndexByte, lastIndexByte_none s c h]
  | cons b x ih => simp [LastIndexByte, ih]

theorem rdropWhile_append_all (p : Nat → Bool) (l sl : List Nat) (h : ∀ b ∈ sl, p b = true) :
    (l ++ sl).rdropWhile p = l.rdropWhile p := by
  induction sl using List.reverseRecOn with
  | nil => simp
  | append_singleton sl b ih =>
    rw [← List.append_assoc, List.rdropWhile_concat]
    have hb : p b = true := h b (by simp)
    rw [if_pos hb]
    exact ih (fun a ha => h a (by simp [ha]))

/-- The last element of a path: what follows the last slash, trailing slashes apart. -/
theorem base_append (x name sl : GoString) (hne : name ≠ []) (hs : slash ∉ name)
    (hx : x = [] ∨ x.getLast? = some slash) (hsl : ∀ b ∈ sl, b = slash) :
    Base (x ++ name ++ sl) = name := by
  have h1 : x ++ name ++ sl ≠ [] := by simp [hne]
  have h2 : (x ++ name ++ sl).rdropWhile (fun b => b == slash) = x ++ name := by
    rw [rdropWhile_append_all _ _ _ (fun b hb => by simp [hsl b hb])]
    rw [List.rdropWhile_eq_self_iff]
    intro hl
    have hlast : (x ++ name).getLast hl = name.getLast hne := List.getLast_append_of_ne_nil hne
    rw [hlast]
    have hm : name.getLast hne ∈ name := List.getLast_mem hne
    intro hc
    have : name.getLast hne = slash := by simpa using hc
    exact hs (this ▸ hm)
  unfold Base
  rw [if_neg h1]
  simp only [h2]
  rcases hx with hx | hx
  · subst hx
    simp [lastIndexByte_none name slash hs, hne]
  · obtain ⟨y, rfl⟩ := List.getLast?_eq_some_iff.1 hx
    have : y ++ [slash] ++ name = y ++ slash :: name := by simp
    rw [this, lastIndexByte_append y name slash hs]
    simp [hne]

theorem takeWhile_name (n sl : GoString) (hs : slash ∉ n) (hsl : ∀ b ∈ sl, b = slash) :
    (n ++ sl).takeWhile (fun b => b != slash) = n := by
  induction n with
  | nil =>
    cases sl with
    | nil => rfl
    | cons b sl => simp [List.takeWhile_cons, hsl b (by simp)]
  | cons a n ih =>
    have ha : a ≠ slash := fun e => hs (by simp [e])
    have hn : slash ∉ n := fun e => hs (by simp [e])
    simp [List.takeWhile_cons, ha, ih hn]

theorem dropWhile_name (n sl : GoString) (hs : slash ∉ n) (hsl : ∀ b ∈ sl, b = slash) :
    (n ++ sl).dropWhile (fun b => b != slash) = sl := by
  induction n with
  | nil =>
    cases sl with
    | nil => rfl
    | cons b sl => simp [List.dropWhile_cons, hsl b (by simp)]
  | cons a n ih =>
    have ha : a ≠ slash := fun e => hs (by simp [e])
    have hn : slash ∉ n := fun e => hs (by simp [e])
    simp [List.dropWhile_cons, ha, ih hn]

theorem takeWhile_upto_slash (y r : GoString) :
    (y ++ [slash] ++ r).takeWhile (fun b => b != slash)
      = (y ++ [slash]).takeWhile (fun b => b != slash) := by
  induction y with
  | nil => simp [List.takeWhile_cons]
  | cons a y ih =>
    by_cases ha : a = slash
    · simp [List.takeWhile_cons, ha]
    · simp only [List.append_assoc, List.singleton_append] at ih
      simp [List.takeWhile_cons, ha, ih]

theorem dropWhile_upto_slash (y r : GoString) :
    ∃ z, (y ++ [slash]).dropWhile (fun b => b != slash) = z ++ [slash] ∧
      (y ++ [slash] ++ r).dropWhile (fun b => b != slash) = z ++ [slash] ++ r ∧
      z.length ≤ y.length := by
  induction y with
  | nil => exact ⟨[], by simp [List.dropWhile_cons], by simp [List.dropWhile_cons], by simp⟩
  | cons a y ih =>
    by_cases ha : a = slash
    · exact ⟨a :: y, by simp [List.dropWhile_cons, ha], by simp [List.dropWhile_cons, ha],
        by simp⟩
    · obtain ⟨z, h1, h2, h3⟩ := ih
      refine ⟨z, ?_, ?_, ?_⟩
      · simpa [List.dropWhile_cons, ha] using h1
      · simpa [List.dropWhile_cons, ha] using h2
      · simp only [List.length_cons]
        omega

theorem getLast?_tail_of_cons (c : Nat) (l : GoString) (h : (c :: l).getLast? = some slash) :
    l = [] ∨ l.getLast? = some slash := by
  cases l with
  | nil => exact Or.inl rfl
  | cons b l =>
    right
    simpa [List.getLast?_cons_cons] using h

theorem cleanLoop_slashes (rooted : Bool) (out : GoString) (dotdot : Nat) :
    ∀ (fuel : Nat) (sl : GoString), (∀ b ∈ sl, b = slash) →
      cleanLoop rooted fuel sl out dotdot = out := by
  intro fuel
  induction fuel with
  | zero => intro sl _; rfl
  | succ fuel ih =>
    intro sl hsl
    cases sl with
    | nil => rfl
    | cons b sl =>
      have hb : b = slash := hsl b (by simp)
      rw [cleanLoop, if_pos hb]
      exact ih sl (fun a ha => hsl a (by simp [ha]))

theorem backtrack_ge (out : GoString) (dotdot : Nat) :
    ∀ w, dotdot ≤ w → dotdot ≤ backtrack out dotdot w := by
  intro w
  induction w with
  | zero => intro h; simpa [backtrack] using h
  | succ w ih =>
    intro h
    unfold backtrack
    split
    · rename_i hc
      exact ih (by omega)
    · exact h

theorem head?_take_pos (out : GoString) (n : Nat) (hn : 1 ≤ n) :
    (out.take n).head? = out.head? := by
  cases out with
  | nil => simp
  | cons a out =>
    cases n with
    | zero => omega
    | succ n => simp

/-- The loop of `path.Clean` keeps an ordinary last element: on input
`pre ++ name ++ sl`, with `pre` empty or ending in a slash and `sl` only
slashes, the buffer ends with `name`, right after a slash or at its start. -/
theorem cleanLoop_last (rooted : Bool) (name sl : GoString) (hn : Regular name)
    (hsl : ∀ b ∈ sl, b = slash) :
    ∀ (fuel : Nat) (pre out : GoString) (dotdot : Nat),
      (pre = [] ∨ pre.getLast? = some slash) →
      (pre ++ name ++ sl).length ≤ fuel →
      (rooted = true → out.head? = some slash ∧ 1 ≤ dotdot) →
      ∃ o, (o = [] ∨ o.getLast? = some slash) ∧
        cleanLoop rooted fuel (pre ++ name ++ sl) out dotdot = o ++ name := by
  obtain ⟨hne, hns, hnd, hndd⟩ := hn
  intro fuel
  induction fuel with
  | zero =>
    intro pre out dotdot _ hlen _
    have : name.length = 0 := by
      simp only [List.length_append] at hlen
      omega
    exact absurd (List.length_eq_zero.1 this) hne
  | succ fuel ih =>
    intro pre out dotdot hpre hlen hinv
    cases pre with
    | nil =>
      obtain ⟨c, t, rfl⟩ := List.exists_cons_of_ne_nil hne
      have hc : c ≠ slash := fun e => hns (by simp [e])
      have hts : slash ∉ t := fun e => hns (by simp [e])
      have h2 : ¬ (c = dot ∧ (t ++ sl = [] ∨ (t ++ sl).head? = some slash)) := by
        rintro ⟨rfl, h⟩
        cases t with
        | nil => exact hnd rfl
        | cons d t1 =>
          rcases h with h | h
          · simp at h
          · simp only [List.cons_append, List.head?_cons, Option.some.injEq] at h
            exact hts (by simp [h])
      have h3 : ¬ (c = dot ∧ (t ++ sl).head? = some dot ∧
          ((t ++ sl).tail = [] ∨ (t ++ sl).tail.head? = some slash)) := by
        rintro ⟨rfl, hd, h⟩
        cases t with
        | nil => exact hnd rfl
        | cons d t1 =>
          simp only [List.cons_append, List.head?_cons, Option.some.injEq] at hd
          subst hd
          cases t1 with
          | nil => exact hndd rfl
          | cons e t2 =>
            rcases h with h | h
            · simp at h
            · simp only [List.cons_append, List.tail_cons, List.head?_cons,
                Option.some.injEq] at h
              exact hts (by simp [h])
      refine ⟨if (rooted && out.length != 1) || (!rooted && out.length != 0) then out ++ [slash]
          else out, ?_, ?_⟩
      · split
        · right
          simp
        · rename_i hcond
          cases rooted with
          | true =>
            have hl : out.length = 1 := by simpa using hcond
            obtain ⟨a, rfl⟩ := List.length_eq_one.1 hl
            right
            simpa using (hinv rfl).1
          | false =>
            have hl : out.length = 0 := by simpa using hcond
            left
            exact List.length_eq_zero.1 hl
      · show cleanLoop rooted (fuel + 1) (c :: (t ++ sl)) out dotdot = _
        rw [cleanLoop]
        simp only [if_neg hc, if_neg h2, if_neg h3]
        have e1 : c :: (t ++ sl) = (c :: t) ++ sl := rfl
        rw [e1, takeWhile_name _ _ hns hsl, dropWhile_name _ _ hns hsl]
        exact cleanLoop_slashes rooted _ dotdot fuel sl hsl
    | cons c pre1 =>
      have hpre1 : pre1 = [] ∨ pre1.getLast? = some slash := by
        rcases hpre with h | h
        · exact absurd h (by simp)
        · exact getLast?_tail_of_cons c pre1 h
      have hlast : (c :: pre1).getLast? = some slash := by
        rcases hpre with h | h
        · exact absurd h (by simp)
        · exact h
      have hlen1 : (pre1 ++ name ++ sl).length ≤ fuel := by
        simp only [List.length_append, List.length_cons] at hlen ⊢
        omega
      have e0 : c :: pre1 ++ name ++ sl = c :: (pre1 ++ name ++ sl) := rfl
      rw [e0, cleanLoop]
      by_cases hc : c = slash
      · simp only [if_pos hc]
        exact ih pre1 out dotdot hpre1 hlen1 hinv
      · simp only [if_neg hc]
        have hpre1ne : pre1 ≠ [] := by
          rintro rfl
          simp only [List.getLast?_singleton, Option.some.injEq] at hlast
          exact hc hlast
        have hpre1last : pre1.getLast? = some slash := hpre1.resolve_left hpre1ne
        by_cases h2 : c = dot ∧
            (pre1 ++ name ++ sl = [] ∨ (pre1 ++ name ++ sl).head? = some slash)
        · simp only [if_pos h2]
          exact ih pre1 out dotdot hpre1 hlen1 hinv
        · simp only [if_neg h2]
          by_cases h3 : c = dot ∧ (pre1 ++ name ++ sl).head? = some dot ∧
              ((pre1 ++ name ++ sl).tail = [] ∨ (pre1 ++ name ++ sl).tail.head? = some slash)
          · simp only [if_pos h3]
            cases pre1 with
            | nil => exact absurd rfl hpre1ne
            | cons d pre2 =>
              have hpre2 := getLast?_tail_of_cons d pre2 hpre1last
              have hlen2 : (pre2 ++ name ++ sl).length ≤ fuel := by
                simp only [List.length_append, List.length_cons] at hlen1 ⊢
                omega
              simp only [List.cons_append, List.tail_cons]
              split
              · rename_i hbt
                apply ih pre2 _ dotdot hpre2 hlen2
                intro hr
                obtain ⟨hh, hd⟩ := hinv hr
                refine ⟨?_, hd⟩
                rw [head?_take_pos _ _ (le_trans hd (backtrack_ge out dotdot _ (by omega)))]
                exact hh
              · split
                · rename_i hnr
                  apply ih pre2 _ _ hpre2 hlen2
                  intro hr
                  simp [hr] at hnr
                · exact ih pre2 out dotdot hpre2 hlen2 hinv
          · simp only [if_neg h3]
            obtain ⟨y, hy⟩ := List.getLast?_eq_some_iff.1 hpre1last
            have hcb : (c != slash) = true := by simpa using hc
            have e1 : pre1 ++ name ++ sl = y ++ [slash] ++ (name ++ sl) := by
              rw [hy]
              simp
            rw [e1]
            simp only [List.takeWhile_cons, List.dropWhile_cons, hcb, if_true]
            rw [takeWhile_upto_slash]
            obtain ⟨z, _, hz2, hz3⟩ := dropWhile_upto_slash y (name ++ sl)
            rw [hz2]
            have e2 : z ++ [slash] ++ (name ++ sl) = (z ++ [slash]) ++ name ++ sl := by simp
            rw [e2]
            apply ih (z ++ [slash]) _ dotdot (Or.inr (by simp))
            · have hl : pre1.length = y.length + 1 := by simp [hy]
              simp only [List.length_append, List.length_cons, List.length_nil] at hlen1 ⊢
              omega
            · intro hr
              obtain ⟨hh, hd⟩ := hinv hr
              refine ⟨?_, hd⟩
              cases out with
              | nil => simp at hh
              | cons a out1 =>
                simp only [List.head?_cons, Option.some.injEq] at hh
                subst hh
                split <;> simp

/-- The iteration bound of `cleanLoop` is never what stops it: any two bounds
of at least the number of bytes left give the same buffer. -/
theorem cleanLoop_fuel (rooted : Bool) :
    ∀ (fuel1 fuel2 : Nat) (rest out : GoString) (dotdot : Nat),
      rest.length ≤ fuel1 → rest.length ≤ fuel2 →
      cleanLoop rooted fuel1 rest out dotdot = cleanLoop rooted fuel2 rest out dotdot := by
  intro fuel1
  induction fuel1 with
  | zero =>
    intro fuel2 rest out dotdot h1 _
    have : rest = [] := List.length_eq_zero.1 (by omega)
    subst this
    cases fuel2 <;> rfl
  | succ fuel1 ih =>
    intro fuel2 rest out dotdot h1 h2
    cases rest with
    | nil => cases fuel2 <;> rfl
    | cons c t =>
      cases fuel2 with
      | zero => simp at h2
      | succ fuel2 =>
        have ht1 : t.length ≤ fuel1 := by simpa using h1
        have ht2 : t.length ≤ fuel2 := by simpa using h2
        have htt1 : t.tail.length ≤ fuel1 := by
          simp only [List.length_tail]
          omega
        have htt2 : t.tail.length ≤ fuel2 := by
          simp only [List.length_tail]
          omega
        have hd : ((c :: t).dropWhile (fun b => b != slash)).length ≤ t.length ∨ c = slash := by
          by_cases hc : c = slash
          · exact Or.inr hc
          · left
            have hcb : (c != slash) = true := by simpa using hc
            simp only [List.dropWhile_cons, hcb, if_true]
            exact (List.dropWhile_sublist _).length_le
        rw [cleanLoop, cleanLoop]
        split
        · exact ih fuel2 _ _ _ ht1 ht2
        · rename_i hc
          have hd1 := hd.resolve_right hc
          split
          · exact ih fuel2 _ _ _ ht1 ht2
          · split
            · split
              · exact ih fuel2 _ _ _ htt1 htt2
              · split
                · exact ih fuel2 _ _ _ htt1 htt2
                · exact ih fuel2 _ _ _ htt1 htt2
            · exact ih fuel2 _ _ _ (by omega) (by omega)

/-- Cleaning a path keeps an ordinary last element in last place. -/
theorem clean_last (pre name sl : GoString) (hn : Regular name)
    (hpre : pre = [] ∨ pre.getLast? = some slash) (hsl : ∀ b ∈ sl, b = slash) :
    ∃ o, (o = [] ∨ o.getLast? = some slash) ∧ Clean (pre ++ name ++ sl) = o ++ name := by
  have hne : name ≠ [] := hn.1
  have hp : pre ++ name ++ sl ≠ [] := by simp [hne]
  have key : ∃ o, (o = [] ∨ o.getLast? = some slash) ∧
      (if decide ((pre ++ name ++ sl).head? = some slash) = true then
          cleanLoop (decide ((pre ++ name ++ sl).head? = some slash)) (pre ++ name ++ sl).length
            ((pre ++ name ++ sl).drop 1) [slash] 1
        else cleanLoop (decide ((pre ++ name ++ sl).head? = some slash))
            (pre ++ name ++ sl).length (pre ++ name ++ sl) [] 0) = o ++ name := by
    by_cases hr : (pre ++ name ++ sl).head? = some slash
    · rw [if_pos (by simpa using hr)]
      cases pre with
      | nil =>
        obtain ⟨c, t, rfl⟩ := List.exists_cons_of_ne_nil hne
        simp only [List.nil_append, List.cons_append, List.head?_cons, Option.some.injEq] at hr
        exact absurd (by simp [hr]) hn.2.1
      | cons c pre1 =>
        have hpre1 : pre1 = [] ∨ pre1.getLast? = some slash :=
          getLast?_tail_of_cons c pre1 (hpre.resolve_left (by simp))
        have e : (c :: pre1 ++ name ++ sl).drop 1 = pre1 ++ name ++ sl := rfl
        rw [e]
        apply cleanLoop_last _ name sl hn hsl _ pre1 _ _ hpre1
        · simp only [List.length_append, List.length_cons]
          omega
        · intro _
          exact ⟨rfl, le_refl 1⟩
    · rw [if_neg (by simpa using hr)]
      apply cleanLoop_last _ name sl hn hsl _ pre _ _ hpre (le_refl _)
      intro h
      exact absurd (by simpa using h) hr
  obtain ⟨o, ho, hk⟩ := key
  refine ⟨o, ho, ?_⟩
  unfold Clean
  rw [if_neg hp]
  simp only [hk]
  rw [if_neg]
  simp [hne]

theorem base_clean (pre name sl : GoString) (hn : Regular name)
    (hpre : pre = [] ∨ pre.getLast? = some slash) (hsl : ∀ b ∈ sl, b = slash) :
    Base (Clean (pre ++ name ++ sl)) = name := by
  obtain ⟨o, ho, hc⟩ := clean_last pre name sl hn hpre hsl
  rw [hc]
  simpa using base_append o name [] hn.1 hn.2.1 ho (by simp)

theorem base_regular (name : GoString) (hn : Regular name) : Base name = name := by
  simpa using base_append [] name [] hn.1 hn.2.1 (Or.inl rfl) (by simp)

/-- The joined path of a directory and an ordinary entry name. -/
theorem join_eq (root name : GoString) (hne : name ≠ []) :
    Join [root, name] = Clean ((if root = [] then [] else root ++ [slash]) ++ name) := by
  have h0 : ¬ ([root, name].map List.length).sum = 0 := by
    have : 0 < name.length := List.length_pos.2 hne
    simp only [List.map_cons, List.map_nil, List.sum_cons, List.sum_nil]
    omega
  unfold Join
  rw [if_neg h0]
  cases root with
  | nil => simp [joinBuf, hne]
  | cons a root => simp [joinBuf]

/-- The base name of a joined path is the entry name. -/
theorem base_join (root name : GoString) (hn : Regular name) :
    Base (Join [root, name]) = name := by
  rw [join_eq root name hn.1]
  have h := base_clean (if root = [] then [] else root ++ [slash]) name [] hn
    (by split <;> simp) (by simp)
  simpa using h

/-- Every path is a directory part, a last element without slash and trailing
slashes; the last element is empty only for a path made of slashes. -/
theorem path_split (p : GoString) :
    ∃ pre n sl, p = pre ++ n ++ sl ∧ slash ∉ n ∧ (pre = [] ∨ pre.getLast? = some slash) ∧
      (∀ b ∈ sl, b = slash) ∧ (n = [] → pre = []) := by
  induction p using List.reverseRecOn with
  | nil => exact ⟨[], [], [], rfl, by simp, Or.inl rfl, by simp, fun _ => rfl⟩
  | append_singleton p b ih =>
    obtain ⟨pre, n, sl, hp, hn, hpre, hsl, hnil⟩ := ih
    by_cases hb : b = slash
    · refine ⟨pre, n, sl ++ [b], by simp [hp], hn, hpre, ?_, hnil⟩
      intro a ha
      rcases List.mem_append.1 ha with ha | ha
      · exact hsl a ha
      · simpa [hb] using ha
    · by_cases hs : sl = []
      · refine ⟨pre, n ++ [b], [], by simp [hp, hs], ?_, hpre, by simp, by simp⟩
        intro hm
        rcases List.mem_append.1 hm with hm | hm
        · exact hn hm
        · exact hb (List.mem_singleton.1 hm).symm
      · refine ⟨p, [b], [], by simp, by simpa using fun e => hb e.symm, Or.inr ?_, by simp,
          by simp⟩
        have hlast : sl.getLast hs = slash := hsl _ (List.getLast_mem hs)
        rw [hp, List.getLast?_append_of_ne_nil _ hs, List.getLast?_eq_getLast _ hs, hlast]

theorem clean_slashes (sl : GoString) (hne : sl ≠ []) (h : ∀ b ∈ sl, b = slash) :
    Clean sl = [slash] := by
  obtain ⟨b, sl1, rfl⟩ := List.exists_cons_of_ne_nil hne
  have hb : b = slash := h b (by simp)
  subst hb
  unfold Clean
  simp only [if_neg hne, List.head?_cons, decide_True, if_true, List.drop_one, List.tail_cons]
  rw [cleanLoop_slashes true [slash] 1 _ sl1 (fun a ha => h a (by simp [ha]))]
  simp

/-- Cleaning a path first does not reveal a hidden name that `path.Base` misses. -/
theorem base_clean_hidden (p : GoString) (h : (Base (Clean p)).head? = some dot) :
    (Base p).head? = some dot := by
  obtain ⟨pre, n, sl, hp, hn, hpre, hsl, hnil⟩ := path_split p
  by_cases hne : n = []
  · have hpre0 := hnil hne
    subst hne hpre0
    simp only [List.append_nil, List.nil_append] at hp
    subst hp
    by_cases hp0 : p = []
    · subst hp0
      rfl
    · rw [clean_slashes p hp0 hsl] at h
      exact absurd h (by decide)
  · have hbase : Base p = n := by
      rw [hp]
      exact base_append pre n sl hne hn hpre hsl
    by_cases hd1 : n = [dot]
    · rw [hbase, hd1]
      rfl
    · by_cases hd2 : n = [dot, dot]
      · rw [hbase, hd2]
        rfl
      · have hreg : Regular n := ⟨hne, hn, hd1, hd2⟩
        rw [hbase]
        rw [hp, base_clean pre n sl hreg hpre hsl] at h
        exact h

/-! ## The filter -/

theorem extLoop_append (rest : List Nat) :
    ∀ (r : List Nat) (suf : GoString), (∀ b ∈ r, b ≠ dot ∧ b ≠ slash) →
      extLoop (r ++ dot :: rest) suf = dot :: (r.reverse ++ suf) := by
  intro r
  induction r with
  | nil => intro suf _; simp [extLoop]
  | cons b r ih =>
    intro suf h
    have hb := h b (by simp)
    have hr : ∀ a ∈ r, a ≠ dot ∧ a ≠ slash := fun a ha => h a (by simp [ha])
    simp [extLoop, hb.1, hb.2, ih (b :: suf) hr]

/-- The extension is the suffix that starts at the last dot of the last element. -/
theorem ext_append (pre e : GoString) (h : ∀ b ∈ e, b ≠ dot ∧ b ≠ slash) :
    Ext (pre ++ dot :: e) = dot :: e := by
  unfold Ext
  have hr : ∀ b ∈ e.reverse, b ≠ dot ∧ b ≠ slash := fun b hb => h b (by simpa using hb)
  have := extLoop_append pre.reverse e.reverse [] hr
  simpa using this

theorem deniedExtensions_shape :
    ∀ e ∈ deniedExtensions, e.head? = some dot ∧ ∀ b ∈ e.tail, b ≠ dot ∧ b ≠ slash := by
  decide

/-- The verdict of `isValid` depends on the base name only. -/
theorem isValid_congr (p q : GoString) (h : Base p = Base q) : isValid p = isValid q := by
  unfold isValid
  rw [h]

theorem countLoop_eq (content : List Nat) : ∀ nl, countLoop content nl = nl + content.count lf := by
  induction content with
  | nil => intro nl; simp [countLoop]
  | cons b content ih =>
    intro nl
    by_cases hb : b = lf
    · subst hb
      simp only [countLoop, if_true, ih, List.count_cons_self]
      omega
    · have hne : (b == lf) = false := by simpa using hb
      simp only [countLoop, if_neg hb, ih, List.count_cons, hne]
      simp

/-! ## The walker -/

/-- Invariant rule for the loop over the entries: a property of the node under
construction that holds at the start and survives the attachment of a file node
and of a directory node holds at the end. -/
theorem walkEntries_inv (fs : FS) (recur : GoString → Option (Option FileInfo))
    (root : GoString) (P : FileInfo → Prop) :
    ∀ (entries : List DirEntry),
      (∀ (res : FileInfo) (e : DirEntry), e ∈ entries → P res →
        isValid (Join [root, e.Name]) = true → e.IsDir = false →
        0 < countLinesInFile fs (Join [root, e.Name]) →
        P ⟨res.Path, res.Lines + countLinesInFile fs (Join [root, e.Name]), res.IsDir,
          res.Children ++
            [⟨Join [root, e.Name], countLinesInFile fs (Join [root, e.Name]), false, []⟩]⟩) →
      (∀ (res : FileInfo) (e : DirEntry) (tmp : FileInfo), e ∈ entries → P res →
        isValid (Join [root, e.Name]) = true → e.IsDir = true →
        recur (Join [root, e.Name]) = some (some tmp) → 0 < tmp.Lines →
        P ⟨res.Path, res.Lines + tmp.Lines, res.IsDir, res.Children ++ [tmp]⟩) →
      ∀ (res r : FileInfo), P res → walkEntries fs recur root entries res = some r → P r := by
  intro entries
  induction entries with
  | nil =>
    intro _ _ res r hP h
    simp only [walkEntries, Option.some.injEq] at h
    exact h ▸ hP
  | cons e es ih =>
    intro hfile hdir res r hP h
    have ih1 := ih (fun res e1 he1 => hfile res e1 (List.mem_cons_of_mem _ he1))
      (fun res e1 tmp he1 => hdir res e1 tmp (List.mem_cons_of_mem _ he1))
    rw [walkEntries] at h
    by_cases hv : isValid (Join [root, e.Name]) = true
    · by_cases hd : e.IsDir = true
      · simp only [hv, hd, Bool.not_true, Bool.false_eq_true, if_false, if_true] at h
        cases hr : recur (Join [root, e.Name]) with
        | none => simp [hr] at h
        | some o =>
          cases o with
          | none =>
            simp only [hr] at h
            exact ih1 res r hP h
          | some tmp =>
            simp only [hr] at h
            by_cases hl : 0 < tmp.Lines
            · simp only [hl, if_true] at h
              exact ih1 _ r (hdir res e tmp (by simp) hP hv hd hr hl) h
            · simp only [hl, if_false] at h
              exact ih1 res r hP h
      · have hd1 : e.IsDir = false := by simpa using hd
        simp only [hv, hd1, Bool.not_true, Bool.false_eq_true, if_false] at h
        by_cases hl : 0 < countLinesInFile fs (Join [root, e.Name])
        · simp only [hl, if_true] at h
          exact ih1 _ r (hfile res e (by simp) hP hv hd1 hl) h
        · simp only [hl, if_false] at h
          exact ih1 res r hP h
    · have hv1 : isValid (Join [root, e.Name]) = false := by simpa using hv
      simp only [hv1, Bool.not_false, if_true] at h
      exact ih1 res r hP h

/-- What a positive budget computes: the listing decides between `nil` and the loop. -/
theorem countLinesInDirectory_succ (fs : FS) (fuel : Nat) (root : GoString) :
    countLinesInDirectory fs (fuel + 1) root =
      match fs.ReadDir root with
      | none => some none
      | some entries =>
        if entries.length = 0 then some none
        else (walkEntries fs (countLinesInDirectory fs fuel) root entries
          ⟨root, 0, true, []⟩).map some := by
  rw [countLinesInDirectory]

/-- A returned node comes from the loop over a non-empty listing. -/
theorem countLinesInDirectory_some (fs : FS) (fuel : Nat) (root : GoString) (t : FileInfo)
    (h : countLinesInDirectory fs fuel root = some (some t)) :
    ∃ fuel1 entries, fuel = fuel1 + 1 ∧ fs.ReadDir root = some entries ∧ entries ≠ [] ∧
      walkEntries fs (countLinesInDirectory fs fuel1) root entries ⟨root, 0, true, []⟩
        = some t := by
  cases fuel with
  | zero => simp [countLinesInDirectory] at h
  | succ fuel1 =>
    rw [countLinesInDirectory_succ] at h
    cases hr : fs.ReadDir root with
    | none => simp [hr] at h
    | some entries =>
      simp only [hr] at h
      by_cases hl : entries.length = 0
      · simp [hl] at h
      · simp only [hl, if_false, Option.map_eq_some', Option.some.injEq] at h
        obtain ⟨a, ha, rfl⟩ := h
        exact ⟨fuel1, entries, rfl, rfl, fun e => hl (by simp [e]), ha⟩

/-- The returned node is a directory node for the path asked. -/
theorem countLinesInDirectory_root (fs : FS) (fuel : Nat) (root : GoString) (t : FileInfo)
    (h : countLinesInDirectory fs fuel root = some (some t)) :
    t.Path = root ∧ t.IsDir = true := by
  obtain ⟨fuel1, entries, _, _, _, hw⟩ := countLinesInDirectory_some fs fuel root t h
  exact walkEntries_inv fs _ root (fun r => r.Path = root ∧ r.IsDir = true) entries
    (fun _ _ _ hP _ _ _ => hP) (fun _ _ _ _ hP _ _ _ _ => hP) _ t ⟨rfl, rfl⟩ hw

/-! ## Trees -/

theorem descendants_eq (t : FileInfo) : t.descendants = descendantsList t.Children := by
  cases t
  rfl

theorem descendantsList_append (a b : List FileInfo) :
    descendantsList (a ++ b) = descendantsList a ++ descendantsList b := by
  induction a with
  | nil => rfl
  | cons c a ih => simp [descendantsList, ih]

theorem descendantsList_concat (a : List FileInfo) (c : FileInfo) :
    descendantsList (a ++ [c]) = descendantsList a ++ (c :: c.descendants) := by
  rw [descendantsList_append]
  simp [descendantsList]

theorem chains_eq (t : FileInfo) : t.chains = chainsList t.Children := by
  cases t
  rfl

theorem chainsList_append (a b : List FileInfo) :
    chainsList (a ++ b) = chainsList a ++ chainsList b := by
  induction a with
  | nil => rfl
  | cons c a ih => simp [chainsList, ih]

theorem chainsList_concat (a : List FileInfo) (c : FileInfo) :
    chainsList (a ++ [c]) = chainsList a ++ ([c] :: c.chains.map (fun ch => c :: ch)) := by
  rw [chainsList_append]
  simp [chainsList]

mutual
/-- Every node below the root ends one of the chains of the tree. -/
theorem chains_cover (t : FileInfo) :
    ∀ n ∈ t.descendants, ∃ ch ∈ t.chains, ch.getLast? = some n :=
  match t with
  | ⟨_, _, _, cs⟩ => by
    simpa [FileInfo.descendants, FileInfo.chains] using chainsList_cover cs
/-- The same for a list of trees. -/
theorem chainsList_cover (cs : List FileInfo) :
    ∀ n ∈ descendantsList cs, ∃ ch ∈ chainsList cs, ch.getLast? = some n :=
  match cs with
  | [] => by simp [descendantsList]
  | c :: cs => by
    intro n hn
    simp only [descendantsList, List.cons_append, List.mem_cons, List.mem_append] at hn
    rcases hn with hn | hn | hn
    · exact ⟨[c], by simp [chainsList], by simp [hn]⟩
    · obtain ⟨ch, hch, hl⟩ := chains_cover c n hn
      refine ⟨c :: ch, by simp [chainsList, hch], ?_⟩
      cases ch with
      | nil => simp at hl
      | cons a ch => simpa [List.getLast?_cons_cons] using hl
    · obtain ⟨ch, hch, hl⟩ := chainsList_cover cs n hn
      exact ⟨ch, by simp [chainsList, hch], hl⟩
end

/-- Every node below the root of a returned tree is either a file node made from a
counted file or the node returned for an accepted subdirectory: a property that
holds of both holds of every node below the root. -/
theorem countLinesInDirectory_descendants (fs : FS) (Q : FileInfo → Prop)
    (hfile : ∀ p : GoString, isValid p = true → 0 < countLinesInFile fs p →
      Q ⟨p, countLinesInFile fs p, false, []⟩)
    (hdir : ∀ (fuel : Nat) (p : GoString) (t : FileInfo), isValid p = true →
      countLinesInDirectory fs fuel p = some (some t) → 0 < t.Lines → Q t) :
    ∀ (fuel : Nat) (root : GoString) (t : FileInfo),
      countLinesInDirectory fs fuel root = some (some t) → ∀ n ∈ t.descendants, Q n := by
  intro fuel
  induction fuel with
  | zero =>
    intro root t h
    simp [countLinesInDirectory] at h
  | succ fuel ih =>
    intro root t h
    obtain ⟨fuel1, entries, hf, _, _, hw⟩ := countLinesInDirectory_some fs _ root t h
    have hf1 : fuel1 = fuel := by omega
    subst hf1
    rw [descendants_eq]
    refine walkEntries_inv fs _ root (fun r => ∀ n ∈ descendantsList r.Children, Q n) entries
      ?_ ?_ _ t (by simp [descendantsList]) hw
    · intro res e _ hP hv _ hl n hn
      rw [descendantsList_concat] at hn
      simp only [FileInfo.descendants, descendantsList, List.mem_append, List.mem_cons,
        List.not_mem_nil, or_false] at hn
      rcases hn with hn | hn
      · exact hP n hn
      · rw [hn]
        exact hfile _ hv hl
    · intro res e tmp _ hP hv _ hr hl n hn
      rw [descendantsList_concat] at hn
      simp only [List.mem_append, List.mem_cons] at hn
      rcases hn with hn | hn | hn
      · exact hP n hn
      · rw [hn]
        exact hdir fuel1 _ tmp hv hr hl
      · exact ih _ tmp hr n hn

/-- The count of a returned directory node is the sum of the counts of its children. -/
theorem countLinesInDirectory_sum (fs : FS) (fuel : Nat) (root : GoString) (t : FileInfo)
    (h : countLinesInDirectory fs fuel root = some (some t)) :
    t.Lines = (t.Children.map FileInfo.Lines).sum := by
  obtain ⟨fuel1, entries, _, _, _, hw⟩ := countLinesInDirectory_some fs fuel root t h
  refine walkEntries_inv fs _ root (fun r => r.Lines = (r.Children.map FileInfo.Lines).sum)
    entries ?_ ?_ _ t (by simp) hw
  · intro res e _ hP _ _ _
    simp only [List.map_append, List.sum_append, List.map_cons, List.map_nil, List.sum_cons,
      List.sum_nil, hP]
    omega
  · intro res e tmp _ hP _ _ _ _
    simp only [List.map_append, List.sum_append, List.map_cons, List.map_nil, List.sum_cons,
      List.sum_nil, hP]
    omega

/-! ## The depth budget -/

/-- The loop finishes when every recursive call it makes does. -/
theorem walkEntries_total (fs : FS) (recur : GoString → Option (Option FileInfo))
    (root : GoString) :
    ∀ (entries : List DirEntry),
      (∀ e ∈ entries, isValid (Join [root, e.Name]) = true → e.IsDir = true →
        ∃ o, recur (Join [root, e.Name]) = some o) →
      ∀ res, ∃ r, walkEntries fs recur root entries res = some r := by
  intro entries
  induction entries with
  | nil => intro _ res; exact ⟨res, rfl⟩
  | cons e es ih =>
    intro hrec res
    have ih1 := ih (fun e1 he1 => hrec e1 (List.mem_cons_of_mem _ he1))
    rw [walkEntries]
    by_cases hv : isValid (Join [root, e.Name]) = true
    · by_cases hd : e.IsDir = true
      · obtain ⟨o, ho⟩ := hrec e (by simp) hv hd
        simp only [hv, hd, Bool.not_true, Bool.false_eq_true, if_false, if_true, ho]
        cases o with
        | none => exact ih1 res
        | some tmp =>
          simp only
          split
          · exact ih1 _
          · exact ih1 res
      · have hd1 : e.IsDir = false := by simpa using hd
        simp only [hv, hd1, Bool.not_true, Bool.false_eq_true, if_false]
        split
        · exact ih1 _
        · exact ih1 res
    · have hv1 : isValid (Join [root, e.Name]) = false := by simpa using hv
      simp only [hv1, Bool.not_false, if_true]
      exact ih1 res

/-- A loop that finished made only recursive calls that finished. -/
theorem walkEntries_recur (fs : FS) (recur : GoString → Option (Option FileInfo))
    (root : GoString) :
    ∀ (entries : List DirEntry) (res r : FileInfo),
      walkEntries fs recur root entries res = some r →
      ∀ e ∈ entries, isValid (Join [root, e.Name]) = true → e.IsDir = true →
        ∃ o, recur (Join [root, e.Name]) = some o := by
  intro entries
  induction entries with
  | nil => intro _ _ _ e he; simp at he
  | cons e es ih =>
    intro res r h e1 he1 hv1 hd1
    rw [walkEntries] at h
    have key : (∃ o, recur (Join [root, e.Name]) = some o ∨
          ¬ (isValid (Join [root, e.Name]) = true ∧ e.IsDir = true)) ∧
        ∃ res1, walkEntries fs recur root es res1 = some r := by
      by_cases hv : isValid (Join [root, e.Name]) = true
      · by_cases hd : e.IsDir = true
        · simp only [hv, hd, Bool.not_true, Bool.false_eq_true, if_false, if_true] at h
          cases hr : recur (Join [root, e.Name]) with
          | none => simp [hr] at h
          | some o =>
            refine ⟨⟨o, Or.inl rfl⟩, ?_⟩
            cases o with
            | none =>
              simp only [hr] at h
              exact ⟨_, h⟩
            | some tmp =>
              simp only [hr] at h
              split at h
              · exact ⟨_, h⟩
              · exact ⟨_, h⟩
        · refine ⟨⟨none, Or.inr (fun hh => hd hh.2)⟩, ?_⟩
          have hd2 : e.IsDir = false := by simpa using hd
          simp only [hv, hd2, Bool.not_true, Bool.false_eq_true, if_false] at h
          split at h
          · exact ⟨_, h⟩
          · exact ⟨_, h⟩
      · refine ⟨⟨none, Or.inr (fun hh => hv hh.1)⟩, ?_⟩
        have hv2 : isValid (Join [root, e.Name]) = false := by simpa using hv
        simp only [hv2, Bool.not_false, if_true] at h
        exact ⟨_, h⟩
    obtain ⟨⟨o, ho⟩, res1, hres1⟩ := key
    rcases List.mem_cons.1 he1 with rfl | hmem
    · rcases ho with ho | ho
      · exact ⟨o, ho⟩
      · exact absurd ⟨hv1, hd1⟩ ho
    · exact ih res1 r hres1 e1 hmem hv1 hd1

/-- The loop gives the same node with any recursive call that agrees with the
first wherever the first finishes. -/
theorem walkEntries_congr (fs : FS) (recur1 recur2 : GoString → Option (Option FileInfo))
    (root : GoString) (hrec : ∀ p o, recur1 p = some o → recur2 p = some o) :
    ∀ (entries : List DirEntry) (res r : FileInfo),
      walkEntries fs recur1 root entries res = some r →
      walkEntries fs recur2 root entries res = some r := by
  intro entries
  induction entries with
  | nil => intro res r h; exact h
  | cons e es ih =>
    intro res r h
    rw [walkEntries] at h ⊢
    by_cases hv : isValid (Join [root, e.Name]) = true
    · by_cases hd : e.IsDir = true
      · simp only [hv, hd, Bool.not_true, Bool.false_eq_true, if_false, if_true] at h ⊢
        cases hr : recur1 (Join [root, e.Name]) with
        | none => simp [hr] at h
        | some o =>
          rw [hrec _ o hr]
          rw [hr] at h
          cases o with
          | none => exact ih _ _ h
          | some tmp =>
            simp only at h ⊢
            split
            · rename_i hl
              simp only [hl, if_true] at h
              exact ih _ _ h
            · rename_i hl
              simp only [hl, if_false] at h
              exact ih _ _ h
      · have hd1 : e.IsDir = false := by simpa using hd
        simp only [hv, hd1, Bool.not_true, Bool.false_eq_true, if_false] at h ⊢
        split
        · rename_i hl
          simp only [hl, if_true] at h
          exact ih _ _ h
        · rename_i hl
          simp only [hl, if_false] at h
          exact ih _ _ h
    · have hv1 : isValid (Join [root, e.Name]) = false := by simpa using hv
      simp only [hv1, Bool.not_false, if_true] at h ⊢
      exact ih _ _ h

/-- A larger depth budget does not change a result already obtained. -/
theorem countLinesInDirectory_mono (fs : FS) :
    ∀ (fuel : Nat) (root : GoString) (o : Option FileInfo),
      countLinesInDirectory fs fuel root = some o →
      ∀ k, countLinesInDirectory fs (fuel + k) root = some o := by
  intro fuel
  induction fuel with
  | zero => intro root o h; simp [countLinesInDirectory] at h
  | succ fuel ih =>
    intro root o h k
    have e : fuel + 1 + k = (fuel + k) + 1 := by omega
    rw [e, countLinesInDirectory_succ]
    rw [countLinesInDirectory_succ] at h
    cases hr : fs.ReadDir root with
    | none => simpa [hr] using h
    | some entries =>
      simp only [hr] at h ⊢
      by_cases hl : entries.length = 0
      · simpa [hl] using h
      · simp only [hl, if_false, Option.map_eq_some'] at h ⊢
        obtain ⟨a, ha, hao⟩ := h
        exact ⟨a, walkEntries_congr fs _ _ root (fun p o1 hp => ih p o1 hp k) entries _ a ha, hao⟩

/-- A directory tree that fits the depth budget is walked to the end. -/
theorem countLinesInDirectory_total (fs : FS) :
    ∀ (fuel : Nat) (root : GoString), fitsDepth fs fuel root = true →
      ∃ o, countLinesInDirectory fs fuel root = some o := by
  intro fuel
  induction fuel with
  | zero => intro root h; simp [fitsDepth] at h
  | succ fuel ih =>
    intro root h
    rw [countLinesInDirectory_succ]
    rw [fitsDepth] at h
    cases hr : fs.ReadDir root with
    | none => exact ⟨none, rfl⟩
    | some entries =>
      simp only [hr, Option.getD_some, List.all_eq_true] at h
      simp only
      by_cases hl : entries.length = 0
      · exact ⟨none, by simp [hl]⟩
      · simp only [hl, if_false]
        obtain ⟨r, hr1⟩ := walkEntries_total fs (countLinesInDirectory fs fuel) root entries
          (fun e he hv hd => ih _ (by simpa [hv, hd] using h e he)) ⟨root, 0, true, []⟩
        exact ⟨some r, by simp [hr1]⟩

/-! ## Reachable files -/

theorem reachableDir_trans (fs : FS) (root d d1 : GoString) (h1 : ReachableDir fs root d)
    (h2 : ReachableDir fs d d1) : ReachableDir fs root d1 := by
  induction h2 with
  | root => exact h1
  | step d2 es e _ hl he hd hv ih => exact ReachableDir.step d2 es e ih hl he hd hv

theorem reachableFile_of_entry (fs : FS) (root : GoString) (es : List DirEntry) (e : DirEntry)
    (f : GoString) (hl : fs.ReadDir root = some es) (he : e ∈ es) (hd : e.IsDir = true)
    (hv : isValid (Join [root, e.Name]) = true)
    (h : ReachableFile fs (Join [root, e.Name]) f) : ReachableFile fs root f := by
  obtain ⟨d, es1, e1, hr, h1, h2, h3, h4, h5⟩ := h
  exact ⟨d, es1, e1,
    reachableDir_trans fs root _ d (ReachableDir.step root es e ReachableDir.root hl he hd hv) hr,
    h1, h2, h3, h4, h5⟩

theorem mem_reachableFiles (fs : FS) (depth : Nat) (root f : GoString) :
    f ∈ reachableFiles fs (depth + 1) root ↔
      ∃ es e, fs.ReadDir root = some es ∧ e ∈ es ∧ isValid (Join [root, e.Name]) = true ∧
        ((e.IsDir = true ∧ f ∈ reachableFiles fs depth (Join [root, e.Name])) ∨
         (e.IsDir = false ∧ f = Join [root, e.Name])) := by
  rw [reachableFiles, List.mem_flatMap]
  constructor
  · rintro ⟨e, he, hf⟩
    cases hr : fs.ReadDir root with
    | none => simp [hr] at he
    | some es =>
      simp only [hr, Option.getD_some] at he
      refine ⟨es, e, rfl, he, ?_⟩
      by_cases hv : isValid (Join [root, e.Name]) = true
      · refine ⟨hv, ?_⟩
        simp only [hv, if_true] at hf
        by_cases hd : e.IsDir = true
        · simp only [hd, if_true] at hf
          exact Or.inl ⟨hd, hf⟩
        · have hd1 : e.IsDir = false := by simpa using hd
          simp only [hd1, Bool.false_eq_true, if_false, List.mem_singleton] at hf
          exact Or.inr ⟨hd1, hf⟩
      · simp [hv] at hf
  · rintro ⟨es, e, hr, he, hv, h⟩
    refine ⟨e, by simpa [hr] using he, ?_⟩
    rcases h with ⟨hd, hf⟩ | ⟨hd, hf⟩
    · simpa [hv, hd] using hf
    · simpa [hv, hd] using hf

/-- Every enumerated file is a reachable file. -/
theorem reachableFiles_sound (fs : FS) :
    ∀ (depth : Nat) (root f : GoString), f ∈ reachableFiles fs depth root →
      ReachableFile fs root f := by
  intro depth
  induction depth with
  | zero => intro root f h; simp [reachableFiles] at h
  | succ depth ih =>
    intro root f h
    obtain ⟨es, e, hl, he, hv, h1⟩ := (mem_reachableFiles fs depth root f).1 h
    rcases h1 with ⟨hd, hf⟩ | ⟨hd, hf⟩
    · exact reachableFile_of_entry fs root es e f hl he hd hv (ih _ f hf)
    · exact ⟨root, es, e, ReachableDir.root, hl, he, hd, hv, hf⟩

/-- A walk that finished made a finished walk of every accepted subdirectory. -/
theorem countLinesInDirectory_step (fs : FS) (fuel : Nat) (root : GoString)
    (o : Option FileInfo) (es : List DirEntry) (e : DirEntry)
    (h : countLinesInDirectory fs fuel root = some o) (hl : fs.ReadDir root = some es)
    (he : e ∈ es) (hd : e.IsDir = true) (hv : isValid (Join [root, e.Name]) = true) :
    ∃ fuel1 o1, fuel = fuel1 + 1 ∧
      countLinesInDirectory fs fuel1 (Join [root, e.Name]) = some o1 := by
  cases fuel with
  | zero => simp [countLinesInDirectory] at h
  | succ fuel1 =>
    rw [countLinesInDirectory_succ] at h
    simp only [hl] at h
    have hne : ¬ es.length = 0 := by
      intro h0
      rw [List.length_eq_zero.1 h0] at he
      simp at he
    simp only [hne, if_false, Option.map_eq_some'] at h
    obtain ⟨a, ha, _⟩ := h
    obtain ⟨o1, ho1⟩ := walkEntries_recur fs _ root es _ a ha e he hv hd
    exact ⟨fuel1, o1, rfl, ho1⟩

/-- A walk that finished has been through every reachable directory. -/
theorem reachableDir_walked (fs : FS) (fuel : Nat) (root : GoString) (o : Option FileInfo)
    (h : countLinesInDirectory fs fuel root = some o) (d : GoString)
    (hd : ReachableDir fs root d) :
    ∃ k o1, countLinesInDirectory fs k d = some o1 ∧
      ∀ f ∈ reachableFiles fs k d, f ∈ reachableFiles fs fuel root := by
  induction hd with
  | root => exact ⟨fuel, o, h, fun f hf => hf⟩
  | step d1 es e _ hl he hdir hv ih =>
    obtain ⟨k, o1, hk, hsub⟩ := ih
    obtain ⟨k1, o2, hk1, ho2⟩ := countLinesInDirectory_step fs k d1 o1 es e hk hl he hdir hv
    subst hk1
    refine ⟨k1, o2, ho2, fun f hf => hsub f ?_⟩
    exact (mem_reachableFiles fs k1 d1 f).2 ⟨es, e, hl, he, hv, Or.inl ⟨hdir, hf⟩⟩

/-- After a walk that finished, the enumeration holds exactly the reachable files. -/
theorem mem_reachableFiles_iff (fs : FS) (fuel : Nat) (root : GoString) (o : Option FileInfo)
    (h : countLinesInDirectory fs fuel root = some o) (f : GoString) :
    f ∈ reachableFiles fs fuel root ↔ ReachableFile fs root f := by
  constructor
  · exact reachableFiles_sound fs fuel root f
  · rintro ⟨d, es, e, hd, hl, he, hfile, hv, hf⟩
    obtain ⟨k, o1, hk, hsub⟩ := reachableDir_walked fs fuel root o h d hd
    cases k with
    | zero => simp [countLinesInDirectory] at hk
    | succ k1 =>
      exact hsub f ((mem_reachableFiles fs k1 d f).2 ⟨es, e, hl, he, hv, Or.inr ⟨hfile, hf⟩⟩)

/-- The count of the node under construction grows by the counts of the files
reached through the entries of the loop. -/
theorem walkEntries_lines (fs : FS) (recur : GoString → Option (Option FileInfo))
    (root : GoString) (reach : GoString → List GoString)
    (hrec : ∀ p o, recur p = some o →
      ((reach p).map (countLinesInFile fs)).sum = (o.map FileInfo.Lines).getD 0) :
    ∀ (entries : List DirEntry) (res r : FileInfo),
      walkEntries fs recur root entries res = some r →
      r.Lines = res.Lines + ((entries.flatMap (fun e =>
        if isValid (Join [root, e.Name]) then
          if e.IsDir then reach (Join [root, e.Name]) else [Join [root, e.Name]]
        else [])).map (countLinesInFile fs)).sum := by
  intro entries
  induction entries with
  | nil =>
    intro res r h
    simp only [walkEntries, Option.some.injEq] at h
    simp [h]
  | cons e es ih =>
    intro res r h
    rw [walkEntries] at h
    simp only [List.flatMap_cons, List.map_append, List.sum_append]
    by_cases hv : isValid (Join [root, e.Name]) = true
    · by_cases hd : e.IsDir = true
      · simp only [hv, hd, Bool.not_true, Bool.false_eq_true, if_false, if_true] at h ⊢
        cases hr : recur (Join [root, e.Name]) with
        | none => simp [hr] at h
        | some o =>
          have hs := hrec _ o hr
          cases o with
          | none =>
            simp only [hr] at h
            rw [ih _ _ h, hs]
            simp
          | some tmp =>
            simp only [hr] at h
            simp only [Option.map_some', Option.getD_some] at hs
            by_cases hl : 0 < tmp.Lines
            · simp only [hl, if_true] at h
              rw [ih _ _ h, hs]
              simp only
              omega
            · simp only [hl, if_false] at h
              rw [ih _ _ h, hs]
              omega
      · have hd1 : e.IsDir = false := by simpa using hd
        simp only [hv, hd1, Bool.not_true, Bool.false_eq_true, if_false, if_true] at h ⊢
        simp only [List.map_cons, List.map_nil, List.sum_cons, List.sum_nil]
        by_cases hl : 0 < countLinesInFile fs (Join [root, e.Name])
        · simp only [hl, if_true] at h
          rw [ih _ _ h]
          simp only
          omega
        · simp only [hl, if_false] at h
          rw [ih _ _ h]
          omega
    · have hv1 : isValid (Join [root, e.Name]) = false := by simpa using hv
      simp only [hv1, Bool.not_false, if_true, Bool.false_eq_true, if_false] at h ⊢
      rw [ih _ _ h]
      simp

/-- The count of a walk is the sum of the counts of the enumerated files; a walk
that returns no node has none. -/
theorem countLinesInDirectory_lines (fs : FS) :
    ∀ (fuel : Nat) (root : GoString) (o : Option FileInfo),
      countLinesInDirectory fs fuel root = some o →
      ((reachableFiles fs fuel root).map (countLinesInFile fs)).sum
        = (o.map FileInfo.Lines).getD 0 := by
  intro fuel
  induction fuel with
  | zero => intro root o h; simp [countLinesInDirectory] at h
  | succ fuel ih =>
    intro root o h
    rw [countLinesInDirectory_succ] at h
    rw [reachableFiles]
    cases hr : fs.ReadDir root with
    | none =>
      simp only [hr, Option.some.injEq] at h
      simp [← h]
    | some entries =>
      simp only [hr] at h
      by_cases hl : entries.length = 0
      · simp only [hl, if_true, Option.some.injEq] at h
        simp [← h, List.length_eq_zero.1 hl]
      · simp only [hl, if_false, Option.map_eq_some'] at h
        obtain ⟨a, ha, rfl⟩ := h
        have := walkEntries_lines fs _ root (reachableFiles fs fuel) (fun p o hp => ih p o hp)
          entries _ a ha
        simp only [Option.getD_some, Option.map_some', this]
        simp

/-! ## The order of the children -/

/-- The loop appends children whose paths follow the order of the entries. -/
theorem walkEntries_sublist (fs : FS) (recur : GoString → Option (Option FileInfo))
    (root : GoString) (hrec : ∀ q tmp, recur q = some (some tmp) → tmp.Path = q) :
    ∀ (entries : List DirEntry) (res r : FileInfo),
      walkEntries fs recur root entries res = some r →
      ∃ kids, r.Children = res.Children ++ kids ∧
        (kids.map FileInfo.Path).Sublist (entries.map (fun e => Join [root, e.Name])) := by
  intro entries
  induction entries with
  | nil =>
    intro res r h
    simp only [walkEntries, Option.some.injEq] at h
    exact ⟨[], by simp [h], by simp⟩
  | cons e es ih =>
    intro res r h
    rw [walkEntries] at h
    have skip : walkEntries fs recur root es res = some r →
        ∃ kids, r.Children = res.Children ++ kids ∧
          (kids.map FileInfo.Path).Sublist
            ((e :: es).map (fun e => Join [root, e.Name])) := by
      intro h1
      obtain ⟨kids, hk, hs⟩ := ih res r h1
      exact ⟨kids, hk, hs.trans (List.sublist_cons_self _ _)⟩
    have take : ∀ tmp : FileInfo, tmp.Path = Join [root, e.Name] →
        walkEntries fs recur root es
          ⟨res.Path, res.Lines + tmp.Lines, res.IsDir, res.Children ++ [tmp]⟩ = some r →
        ∃ kids, r.Children = res.Children ++ kids ∧
          (kids.map FileInfo.Path).Sublist
            ((e :: es).map (fun e => Join [root, e.Name])) := by
      intro tmp hp h1
      obtain ⟨kids, hk, hs⟩ := ih _ r h1
      refine ⟨tmp :: kids, by simp [hk], ?_⟩
      simp only [List.map_cons, hp]
      exact hs.cons₂ _
    by_cases hv : isValid (Join [root, e.Name]) = true
    · by_cases hd : e.IsDir = true
      · simp only [hv, hd, Bool.not_true, Bool.false_eq_true, if_false, if_true] at h
        cases hr : recur (Join [root, e.Name]) with
        | none => simp [hr] at h
        | some o =>
          cases o with
          | none =>
            simp only [hr] at h
            exact skip h
          | some tmp =>
            simp only [hr] at h
            by_cases hl : 0 < tmp.Lines
            · simp only [hl, if_true] at h
              exact take tmp (hrec _ tmp hr) h
            · simp only [hl, if_false] at h
              exact skip h
      · have hd1 : e.IsDir = false := by simpa using hd
        simp only [hv, hd1, Bool.not_true, Bool.false_eq_true, if_false] at h
        by_cases hl : 0 < countLinesInFile fs (Join [root, e.Name])
        · simp only [hl, if_true] at h
          exact take ⟨Join [root, e.Name], countLinesInFile fs (Join [root, e.Name]), false, []⟩
            rfl h
        · simp only [hl, if_false] at h
          exact skip h
    · have hv1 : isValid (Join [root, e.Name]) = false := by simpa using hv
      simp only [hv1, Bool.not_false, if_true] at h
      exact skip h

/-- The children of a returned node follow the listing of its directory. -/
theorem countLinesInDirectory_children (fs : FS) (fuel : Nat) (root : GoString) (t : FileInfo)
    (h : countLinesInDirectory fs fuel root = some (some t)) :
    ∃ es, fs.ReadDir t.Path = some es ∧
      (t.Children.map FileInfo.Path).Sublist (es.map (fun e => Join [t.Path, e.Name])) := by
  obtain ⟨fuel1, entries, _, hlist, _, hw⟩ := countLinesInDirectory_some fs fuel root t h
  obtain ⟨kids, hk, hs⟩ := walkEntries_sublist fs _ root
    (fun q tmp hq => (countLinesInDirectory_root fs fuel1 q tmp hq).1) entries _ t hw
  rw [(countLinesInDirectory_root fs fuel root t h).1]
  refine ⟨entries, hlist, ?_⟩
  simp only [List.nil_append] at hk
  rw [hk]
  exact hs

/-! ## The reporter: facts -/

/-- The write of `printResults` for the root, and the loop over its children. -/
theorem printResults_zero (t : FileInfo) (pfx : GoString) (isLast : Bool) :
    printResults t 0 pfx isLast =
      (pfx ++ t.Path ++ (if t.IsDir then go "/: " else go ": ") ++ fmtInt t.Lines ++ go "\n")
        :: printChildren t.Children ((t.Children.length : Int) - 1) 0 1 (go "") := by
  have h0 : go "" = [] := by decide
  cases t with
  | mk path lines isDir children =>
    cases isDir <;> simp [printResults, h0]

/-- With a positive budget, `nil` is the answer to a failed or empty listing only. -/
theorem countLinesInDirectory_eq_nil_iff (fs : FS) (fuel : Nat) (root : GoString) :
    countLinesInDirectory fs (fuel + 1) root = some none ↔
      (fs.ReadDir root = none ∨ fs.ReadDir root = some []) := by
  rw [countLinesInDirectory_succ]
  cases hr : fs.ReadDir root with
  | none => simp
  | some entries =>
    cases entries with
    | nil => simp
    | cons e es => simp

theorem chainLine_concat (anc : List (Bool × FileInfo)) (isLast : Bool) (n : FileInfo) :
    chainLine (anc ++ [(isLast, n)]) =
      anc.flatMap (fun a => segment a.1) ++ glyph isLast ++ Base n.Path
        ++ (if n.IsDir then go "/: " else go ": ") ++ fmtInt n.Lines ++ go "\n" := by
  have h1 : go "/: " = go "/" ++ go ": " := by decide
  have h0 : go "" = [] := by decide
  have hl : (anc ++ [(isLast, n)]).getLast? = some (isLast, n) := by simp
  unfold chainLine
  rw [hl]
  simp only [List.dropLast_concat]
  cases h : n.IsDir <;> simp [h1, h0]

mutual
/-- Below the root, `printResults` writes for each node the line of its flagged
chain, in the order of the chains. -/
theorem printResults_chains (n : FileInfo) (level : Nat) (anc : List (Bool × FileInfo))
    (isLast : Bool) :
    printResults n (level + 1) (anc.flatMap (fun a => segment a.1)) isLast
      = chainLine (anc ++ [(isLast, n)])
        :: n.flaggedChains.map (fun ch => chainLine (anc ++ (isLast, n) :: ch)) :=
  match n with
  | ⟨path, lines, isDir, cs⟩ => by
    have hrec := printChildren_chains cs ((cs.length : Int) - 1) 0 (level + 1)
      (anc ++ [(isLast, ⟨path, lines, isDir, cs⟩)]) (by simp)
    rw [chainLine_concat]
    simp only [printResults, FileInfo.flaggedChains]
    simp only [List.flatMap_append, List.flatMap_cons, List.flatMap_nil, List.append_nil,
      List.append_assoc, List.singleton_append] at hrec
    have hseg : (if level + 1 = 0 then go ""
        else if isLast = true then anc.flatMap (fun a => segment a.1) ++ go "    "
        else anc.flatMap (fun a => segment a.1) ++ go "│   ")
        = anc.flatMap (fun a => segment a.1) ++ segment isLast := by
      cases isLast <;> simp [segment]
    rw [hseg, hrec]
    cases isLast <;> cases isDir <;> simp [glyph]
/-- The loop over the children writes the lines of their flagged chains. -/
theorem printChildren_chains (cs : List FileInfo) (l : Int) (i level : Nat)
    (anc : List (Bool × FileInfo)) (hl : l = (i : Int) + cs.length - 1) :
    printChildren cs l i (level + 1) (anc.flatMap (fun a => segment a.1))
      = (flaggedChainsList cs).map (fun ch => chainLine (anc ++ ch)) :=
  match cs with
  | [] => by simp [printChildren, flaggedChainsList]
  | c :: rest => by
    have hflag : decide ((i : Int) = l) = rest.isEmpty := by
      cases rest with
      | nil => simp [hl]
      | cons a rest1 =>
        simp only [List.isEmpty_cons, decide_eq_false_iff_not, hl, List.length_cons]
        push_cast
        omega
    have h1 := printResults_chains c level anc rest.isEmpty
    have h2 := printChildren_chains rest l (i + 1) level anc (by
      rw [hl]
      simp only [List.length_cons]
      push_cast
      omega)
    simp only [printChildren, flaggedChainsList, hflag, h1, h2, List.map_append,
      List.map_cons, List.map_map, List.cons_append]
    rfl
end

mutual
/-- Without their flags, the flagged chains are the chains of the tree. -/
theorem flaggedChains_chains (t : FileInfo) :
    t.flaggedChains.map (List.map Prod.snd) = t.chains :=
  match t with
  | ⟨_, _, _, cs⟩ => by
    simpa [FileInfo.flaggedChains, FileInfo.chains] using flaggedChainsList_chains cs
/-- The same for a list of sibling trees. -/
theorem flaggedChainsList_chains (cs : List FileInfo) :
    (flaggedChainsList cs).map (List.map Prod.snd) = chainsList cs :=
  match cs with
  | [] => by simp [flaggedChainsList, chainsList]
  | c :: rest => by
    have h1 := flaggedChains_chains c
    have h2 := flaggedChainsList_chains rest
    simp only [flaggedChainsList, chainsList, List.map_append, List.map_cons, List.map_map,
      List.map_nil, h2, ← h1]
    rfl
end

/-- At level 0 `printResults` writes the line of the root and then, for each node
below it, the line of its flagged chain. -/
theorem printResults_zero_chains (t : FileInfo) (isLast : Bool) :
    printResults t 0 (go "") isLast =
      (t.Path ++ (if t.IsDir then go "/: " else go ": ") ++ fmtInt t.Lines ++ go "\n")
        :: t.flaggedChains.map chainLine := by
  have h0 : go "" = ([] : List (Bool × FileInfo)).flatMap (fun a => segment a.1) := by decide
  rw [printResults_zero]
  have hnil : go "" = [] := by decide
  have hc := printChildren_chains t.Children ((t.Children.length : Int) - 1) 0 0 [] (by simp)
  rw [← h0] at hc
  rw [hc]
  cases t
  simp [FileInfo.flaggedChains, hnil]

theorem digitChar_digit (m : Nat) (h : m < 10) :
    48 ≤ (Nat.digitChar m).toNat ∧ (Nat.digitChar m).toNat ≤ 57 := by
  interval_cases m <;> decide

theorem toDigitsCore_digits :
    ∀ (f n : Nat) (ds : List Char), (∀ c ∈ ds, 48 ≤ c.toNat ∧ c.toNat ≤ 57) →
      ∀ c ∈ Nat.toDigitsCore 10 f n ds, 48 ≤ c.toNat ∧ c.toNat ≤ 57 := by
  intro f
  induction f with
  | zero => intro n ds h; simpa [Nat.toDigitsCore] using h
  | succ f ih =>
    intro n ds h
    have hd := digitChar_digit (n % 10) (Nat.mod_lt _ (by decide))
    have hds : ∀ c ∈ Nat.digitChar (n % 10) :: ds, 48 ≤ c.toNat ∧ c.toNat ≤ 57 := by
      intro c hc
      rcases List.mem_cons.1 hc with rfl | hc
      · exact hd
      · exact h c hc
    rw [Nat.toDigitsCore]
    split
    · exact hds
    · exact ih _ _ hds

/-- The decimal form of a count holds ASCII digits only. -/
theorem fmtInt_digits (n : Nat) : ∀ b ∈ fmtInt n, 48 ≤ b ∧ b ≤ 57 := by
  intro b hb
  unfold fmtInt go at hb
  rw [List.mem_flatMap] at hb
  obtain ⟨c, hc, hbc⟩ := hb
  have hc1 : c ∈ Nat.toDigits 10 n := by
    simpa [toString, Nat.repr, List.asString] using hc
  have hd := toDigitsCore_digits (n + 1) n [] (by simp) c hc1
  have hlt : c.toNat < 0x80 := by omega
  simp only [utf8EncodeChar, hlt, if_true, List.mem_singleton] at hbc
  omega

theorem fmtInt_count_lf (n : Nat) : (fmtInt n).count lf = 0 := by
  rw [List.count_eq_zero]
  intro h
  have := fmtInt_digits n lf h
  simp only [lf] at this
  omega

/-- The write of `printResults` for a node below the root, and the loop over its
children. -/
theorem printResults_succ (n : FileInfo) (level : Nat) (pfx : GoString) (isLast : Bool) :
    printResults n (level + 1) pfx isLast =
      (pfx ++ glyph isLast ++ Base n.Path ++ (if n.IsDir then go "/: " else go ": ")
          ++ fmtInt n.Lines ++ go "\n")
        :: printChildren n.Children ((n.Children.length : Int) - 1) 0 (level + 2)
            (pfx ++ segment isLast) := by
  cases n with
  | mk path lines isDir children =>
    cases isDir <;> cases isLast <;> simp [printResults, glyph, segment]

/-- The output for a node is its own line, then the output of the loop over its
children. -/
theorem printResults_own (t : FileInfo) (level : Nat) (pfx : GoString) (isLast : Bool) :
    ∃ line childPfx,
      printResults ⟨t.Path, t.Lines, t.IsDir, []⟩ level pfx isLast = [line] ∧
      printResults t level pfx isLast =
        line :: printChildren t.Children ((t.Children.length : Int) - 1) 0 (level + 1)
          childPfx := by
  cases level with
  | zero =>
    refine ⟨_, _, ?_, printResults_zero t pfx isLast⟩
    rw [printResults_zero]
    simp [printChildren]
  | succ level =>
    refine ⟨_, _, ?_, printResults_succ t level pfx isLast⟩
    rw [printResults_succ]
    simp [printChildren]

/-- The loop over the children writes the output of each child in turn, the last
one with the flag set. -/
theorem printChildren_enum (l : Int) (level : Nat) (pfx : GoString) :
    ∀ (cs : List FileInfo) (i : Nat),
      printChildren cs l i level pfx =
        (cs.enumFrom i).flatMap
          (fun ic => printResults ic.2 level pfx (decide ((ic.1 : Int) = l))) := by
  intro cs
  induction cs with
  | nil => intro i; simp [printChildren]
  | cons c rest ih =>
    intro i
    simp [printChildren, List.enumFrom_cons, ih (i + 1)]

mutual
/-- The number of writes for a node is the number of nodes of its subtree. -/
theorem printResults_length (n : FileInfo) (level : Nat) (pfx : GoString) (isLast : Bool) :
    (printResults n level pfx isLast).length = 1 + n.descendants.length :=
  match n with
  | ⟨path, lines, isDir, cs⟩ => by
    simp only [printResults, FileInfo.descendants, List.length_cons,
      printChildren_length cs]
    omega
/-- The same for the loop over the children. -/
theorem printChildren_length (cs : List FileInfo) (l : Int) (i level : Nat) (pfx : GoString) :
    (printChildren cs l i level pfx).length = (descendantsList cs).length :=
  match cs with
  | [] => by simp [printChildren, descendantsList]
  | c :: rest => by
    simp only [printChildren, descendantsList, List.length_append, List.length_cons,
      printResults_length c, printChildren_length rest]
    omega
end

/-- A line made of bytes other than line feed, a count and the final line feed
holds one line feed, at its end. -/
theorem line_lf (x : GoString) (n : Nat) :
    (x ++ fmtInt n ++ go "\n").getLast? = some lf ∧
    (lf ∉ x → (x ++ fmtInt n ++ go "\n").count lf = 1) := by
  have h1 : go "\n" = [lf] := by decide
  refine ⟨by simp [h1], fun hx => ?_⟩
  rw [List.count_append, List.count_append, fmtInt_count_lf, List.count_eq_zero.2 hx, h1]
  simp

mutual
/-- Below the root every write ends with a line feed, and holds no other one when
neither the prefix nor a base name holds one. -/
theorem printResults_lf (n : FileInfo) (level : Nat) (pfx : GoString) (isLast : Bool) :
    ∀ w ∈ printResults n (level + 1) pfx isLast, w.getLast? = some lf ∧
      (lf ∉ pfx → lf ∉ Base n.Path → (∀ m ∈ n.descendants, lf ∉ Base m.Path) →
        w.count lf = 1) :=
  match n with
  | ⟨path, lines, isDir, cs⟩ => by
    intro w hw
    rw [printResults_succ] at hw
    rcases List.mem_cons.1 hw with rfl | hw
    · refine ⟨(line_lf _ _).1, fun hp hb _ => (line_lf _ _).2 ?_⟩
      have hg : lf ∉ glyph isLast := by cases isLast <;> decide
      have hsep : lf ∉ (if isDir = true then go "/: " else go ": ") := by
        cases isDir <;> decide
      simp only [List.mem_append, not_or]
      exact ⟨⟨⟨hp, hg⟩, hb⟩, hsep⟩
    · obtain ⟨h1, h2⟩ := printChildren_lf cs _ 0 (level + 1) _ w hw
      refine ⟨h1, fun hp _ hd => h2 ?_ (by simpa [FileInfo.descendants] using hd)⟩
      have hseg : lf ∉ segment isLast := by cases isLast <;> decide
      simp only [List.mem_append, not_or]
      exact ⟨hp, hseg⟩
/-- The same for the loop over the children. -/
theorem printChildren_lf (cs : List FileInfo) (l : Int) (i level : Nat) (pfx : GoString) :
    ∀ w ∈ printChildren cs l i (level + 1) pfx, w.getLast? = some lf ∧
      (lf ∉ pfx → (∀ m ∈ descendantsList cs, lf ∉ Base m.Path) → w.count lf = 1) :=
  match cs with
  | [] => by simp [printChildren]
  | c :: rest => by
    intro w hw
    simp only [printChildren, List.mem_append] at hw
    rcases hw with hw | hw
    · obtain ⟨h1, h2⟩ := printResults_lf c level pfx _ w hw
      refine ⟨h1, fun hp hd => h2 hp (hd c (by simp [descendantsList])) ?_⟩
      intro m hm
      exact hd m (by simp [descendantsList, hm])
    · obtain ⟨h1, h2⟩ := printChildren_lf rest l (i + 1) level pfx w hw
      refine ⟨h1, fun hp hd => h2 hp ?_⟩
      intro m hm
      exact hd m (by simp [descendantsList, hm])
end

/-- The children loop of a directory that holds files only: a tee line for each
child but the last, a corner line for the last. -/
theorem printChildren_files (last : FileInfo) (hlast : last.IsDir = false ∧ last.Children = []) :
    ∀ (init : List FileInfo) (l : Int) (i : Nat),
      (∀ c ∈ init, c.IsDir = false ∧ c.Children = []) → l = (i : Int) + init.length →
      printChildren (init ++ [last]) l i 1 (go "") =
        init.map (fun c => go "├── " ++ Base c.Path ++ go ": " ++ fmtInt c.Lines ++ go "\n")
          ++ [go "└── " ++ Base last.Path ++ go ": " ++ fmtInt last.Lines ++ go "\n"] := by
  have hnil : go "" = [] := by decide
  have hfile : ∀ (c : FileInfo) (b : Bool), c.IsDir = false ∧ c.Children = [] →
      printResults c 1 (go "") b
        = [glyph b ++ Base c.Path ++ go ": " ++ fmtInt c.Lines ++ go "\n"] := by
    intro c b hc
    rw [printResults_succ, hc.1, hc.2]
    simp [printChildren, hnil]
  intro init
  induction init with
  | nil =>
    intro l i _ hl
    have hd : decide ((i : Int) = l) = true := by simp [hl]
    simp [printChildren, hd, hfile last true hlast, glyph]
  | cons c init ih =>
    intro l i hfiles hl
    have hd : decide ((i : Int) = l) = false := by
      simp only [decide_eq_false_iff_not, hl, List.length_cons]
      push_cast
      omega
    have hrest := ih l (i + 1) (fun a ha => hfiles a (by simp [ha])) (by
      rw [hl]
      simp only [List.length_cons]
      push_cast
      omega)
    rw [List.cons_append, printChildren, hd, hfile c false (hfiles c (by simp)), hrest]
    simp [glyph]

/-! ## Removing an unreadable entry -/

theorem walkEntries_removeEntry (fs : FS) (d name : GoString)
    (recur : GoString → Option (Option FileInfo)) (root : GoString) :
    ∀ (entries : List DirEntry) (res : FileInfo),
      walkEntries (removeEntry fs d name) recur root entries res
        = walkEntries fs recur root entries res := by
  intro entries
  induction entries with
  | nil => intro res; rfl
  | cons e es ih =>
    intro res
    have hc : countLinesInFile (removeEntry fs d name) (Join [root, e.Name])
        = countLinesInFile fs (Join [root, e.Name]) := rfl
    rw [walkEntries, walkEntries]
    simp only [ih, hc]

/-- The loop sees of a recursive call only what it keeps of its result. -/
theorem walkEntries_kept (fs : FS) (recur1 recur2 : GoString → Option (Option FileInfo))
    (root : GoString)
    (hrec : ∀ q o1, recur1 q = some o1 → ∃ o2, recur2 q = some o2 ∧ kept o2 = kept o1) :
    ∀ (entries : List DirEntry) (res r : FileInfo),
      walkEntries fs recur1 root entries res = some r →
      walkEntries fs recur2 root entries res = some r := by
  intro entries
  induction entries with
  | nil => intro res r h; exact h
  | cons e es ih =>
    intro res r h
    rw [walkEntries] at h ⊢
    by_cases hv : isValid (Join [root, e.Name]) = true
    · by_cases hd : e.IsDir = true
      · simp only [hv, hd, Bool.not_true, Bool.false_eq_true, if_false, if_true] at h ⊢
        cases hr : recur1 (Join [root, e.Name]) with
        | none => simp [hr] at h
        | some o1 =>
          obtain ⟨o2, ho2, hk⟩ := hrec _ o1 hr
          rw [ho2]
          rw [hr] at h
          cases o1 with
          | none =>
            simp only at h
            cases o2 with
            | none => exact ih _ _ h
            | some t2 =>
              have hl : ¬ 0 < t2.Lines := by
                intro hl
                simp [kept, hl] at hk
              simp only [hl, if_false]
              exact ih _ _ h
          | some t1 =>
            simp only at h
            by_cases hl1 : 0 < t1.Lines
            · simp only [hl1, if_true] at h
              cases o2 with
              | none => simp [kept, hl1] at hk
              | some t2 =>
                by_cases hl2 : 0 < t2.Lines
                · have ht : t2 = t1 := by simpa [kept, hl1, hl2] using hk
                  subst ht
                  simp only [hl2, if_true]
                  exact ih _ _ h
                · simp [kept, hl1, hl2] at hk
            · simp only [hl1, if_false] at h
              cases o2 with
              | none => exact ih _ _ h
              | some t2 =>
                have hl : ¬ 0 < t2.Lines := by
                  intro hl
                  simp [kept, hl, hl1] at hk
                simp only [hl, if_false]
                exact ih _ _ h
      · have hd1 : e.IsDir = false := by simpa using hd
        simp only [hv, hd1, Bool.not_true, Bool.false_eq_true, if_false] at h ⊢
        split
        · rename_i hl
          simp only [hl, if_true] at h
          exact ih _ _ h
        · rename_i hl
          simp only [hl, if_false] at h
          exact ih _ _ h
    · have hv1 : isValid (Join [root, e.Name]) = false := by simpa using hv
      simp only [hv1, Bool.not_false, if_true] at h ⊢
      exact ih _ _ h

/-- Entries that attach nothing can be left out of the loop. -/
theorem walkEntries_filter (fs : FS) (recur : GoString → Option (Option FileInfo))
    (root : GoString) (keep : DirEntry → Bool) :
    ∀ (entries : List DirEntry),
      (∀ e ∈ entries, keep e = false → isValid (Join [root, e.Name]) = true →
        (e.IsDir = true → ∀ o, recur (Join [root, e.Name]) = some o → kept o = none) ∧
        (e.IsDir = false → countLinesInFile fs (Join [root, e.Name]) = 0)) →
      ∀ (res r : FileInfo), walkEntries fs recur root entries res = some r →
        walkEntries fs recur root (entries.filter keep) res = some r := by
  intro entries
  induction entries with
  | nil => intro _ res r h; exact h
  | cons e es ih =>
    intro hskip res r h
    have ih1 := ih (fun e1 he1 => hskip e1 (List.mem_cons_of_mem _ he1))
    by_cases hk : keep e = true
    · rw [List.filter_cons_of_pos hk]
      rw [walkEntries] at h ⊢
      by_cases hv : isValid (Join [root, e.Name]) = true
      · by_cases hd : e.IsDir = true
        · simp only [hv, hd, Bool.not_true, Bool.false_eq_true, if_false, if_true] at h ⊢
          cases hr : recur (Join [root, e.Name]) with
          | none => simp [hr] at h
          | some o =>
            rw [hr] at h
            cases o with
            | none => exact ih1 _ _ h
            | some tmp =>
              simp only at h ⊢
              split
              · rename_i hl
                simp only [hl, if_true] at h
                exact ih1 _ _ h
              · rename_i hl
                simp only [hl, if_false] at h
                exact ih1 _ _ h
        · have hd1 : e.IsDir = false := by simpa using hd
          simp only [hv, hd1, Bool.not_true, Bool.false_eq_true, if_false] at h ⊢
          split
          · rename_i hl
            simp only [hl, if_true] at h
            exact ih1 _ _ h
          · rename_i hl
            simp only [hl, if_false] at h
            exact ih1 _ _ h
      · have hv1 : isValid (Join [root, e.Name]) = false := by simpa using hv
        simp only [hv1, Bool.not_false, if_true] at h ⊢
        exact ih1 _ _ h
    · have hk1 : keep e = false := by simpa using hk
      rw [List.filter_cons_of_neg hk]
      apply ih1 res r
      rw [walkEntries] at h
      by_cases hv : isValid (Join [root, e.Name]) = true
      · obtain ⟨hdir, hfile⟩ := hskip e (by simp) hk1 hv
        by_cases hd : e.IsDir = true
        · simp only [hv, hd, Bool.not_true, Bool.false_eq_true, if_false, if_true] at h
          cases hr : recur (Join [root, e.Name]) with
          | none => simp [hr] at h
          | some o =>
            have hko := hdir hd o hr
            rw [hr] at h
            cases o with
            | none => exact h
            | some tmp =>
              have hl : ¬ 0 < tmp.Lines := by
                intro hl
                simp [kept, hl] at hko
              simpa only [hl, if_false] using h
        · have hd1 : e.IsDir = false := by simpa using hd
          have h0 : ¬ 0 < countLinesInFile fs (Join [root, e.Name]) := by
            rw [hfile hd1]
            decide
          simpa only [hv, hd1, Bool.not_true, Bool.false_eq_true, if_false, h0] using h
      · have hv1 : isValid (Join [root, e.Name]) = false := by simpa using hv
        simpa only [hv1, Bool.not_false, if_true] using h

/-- Without an unreadable entry the walker returns, for every directory, a result
of which the caller keeps the same; and it returns the same result wherever the
listing it reads still holds an entry. -/
theorem countLinesInDirectory_removeEntry (fs : FS) (d name : GoString)
    (hun : Unreadable fs d name) :
    ∀ (fuel : Nat) (p : GoString) (o : Option FileInfo),
      countLinesInDirectory fs fuel p = some o →
      ∃ o1, countLinesInDirectory (removeEntry fs d name) fuel p = some o1 ∧
        kept o1 = kept o ∧
        ((p = d → ∃ e ∈ (fs.ReadDir d).getD [], e.Name ≠ name) → o1 = o) := by
  intro fuel
  induction fuel with
  | zero => intro p o h; simp [countLinesInDirectory] at h
  | succ fuel ih =>
    intro p o h
    rw [countLinesInDirectory_succ] at h
    rw [countLinesInDirectory_succ]
    cases hr : fs.ReadDir p with
    | none =>
      have hr1 : (removeEntry fs d name).ReadDir p = none := by
        simp only [removeEntry]
        split <;> simp [hr]
      simp only [hr, Option.some.injEq] at h
      subst h
      exact ⟨none, by simp [hr1], rfl, fun _ => rfl⟩
    | some es =>
      simp only [hr] at h
      by_cases hl : es.length = 0
      · have hes : es = [] := List.length_eq_zero.1 hl
        have hr1 : (removeEntry fs d name).ReadDir p = some [] := by
          simp only [removeEntry]
          split <;> simp [hr, hes]
        simp only [hl, if_true, Option.some.injEq] at h
        subst h
        exact ⟨none, by simp [hr1], rfl, fun _ => rfl⟩
      · simp only [hl, if_false, Option.map_eq_some'] at h
        obtain ⟨a, ha, rfl⟩ := h
        have ha1 : walkEntries fs (countLinesInDirectory (removeEntry fs d name) fuel) p es
            ⟨p, 0, true, []⟩ = some a :=
          walkEntries_kept fs _ _ p (fun q o1 hq => by
            obtain ⟨o2, h2, hk, _⟩ := ih q o1 hq
            exact ⟨o2, h2, hk⟩) es _ a ha
        by_cases hpd : p = d
        · subst hpd
          have hr1 : (removeEntry fs p name).ReadDir p
              = some (es.filter (fun e => decide (e.Name ≠ name))) := by
            simp [removeEntry, hr]
          have ha2 : walkEntries fs (countLinesInDirectory (removeEntry fs p name) fuel) p
              (es.filter (fun e => decide (e.Name ≠ name))) ⟨p, 0, true, []⟩ = some a := by
            refine walkEntries_filter fs _ p _ es ?_ _ a ha1
            intro e he hk _
            have hname : e.Name = name := by simpa using hk
            obtain ⟨hdir, hfile⟩ := hun e (by simpa [hr] using he) hname
            refine ⟨fun hd o ho => ?_, fun hd => ?_⟩
            · have hnone : (removeEntry fs p name).ReadDir (Join [p, e.Name]) = none := by
                simp only [removeEntry]
                split
                · rename_i heq
                  rw [heq, hr] at hdir
                  exact absurd (hdir hd) (by simp)
                · exact hdir hd
              cases fuel with
              | zero => simp [countLinesInDirectory] at ho
              | succ fuel1 =>
                rw [countLinesInDirectory_succ, hnone] at ho
                simp only [Option.some.injEq] at ho
                rw [← ho]
                rfl
            · unfold countLinesInFile
              rw [hfile hd]
              rfl
          simp only [hr1]
          by_cases hl1 : (es.filter (fun e => decide (e.Name ≠ name))).length = 0
          · have hnil := List.length_eq_zero.1 hl1
            rw [hnil] at ha2
            simp only [walkEntries, Option.some.injEq] at ha2
            refine ⟨none, by rw [if_pos hl1], ?_, fun hex => ?_⟩
            · rw [← ha2]
              rfl
            · exfalso
              obtain ⟨e, he, hne⟩ := hex trivial
              have hmem : e ∈ es.filter (fun e => decide (e.Name ≠ name)) := by
                rw [List.mem_filter]
                exact ⟨by simpa [hr] using he, by simpa using hne⟩
              rw [hnil] at hmem
              simp at hmem
          · refine ⟨some a, ?_, rfl, fun _ => rfl⟩
            simp only [hl1, if_false]
            rw [walkEntries_removeEntry, ha2]
            rfl
        · have hr1 : (removeEntry fs d name).ReadDir p = some es := by
            simp [removeEntry, hpd, hr]
          refine ⟨some a, ?_, rfl, fun _ => rfl⟩
          simp only [hr1, hl, if_false]
          rw [walkEntries_removeEntry, ha1]
          rfl

/-- Writes that hold one line feed each make as many lines as there are writes. -/
theorem outputLines_eq_length (out : List GoString) (h : ∀ w ∈ out, w.count lf = 1) :
    outputLines out = out.length := by
  unfold outputLines
  induction out with
  | nil => rfl
  | cons w out ih =>
    rw [List.flatten_cons, List.count_append, h w (by simp),
      ih (fun a ha => h a (by simp [ha])), List.length_cons]
    omega

/-! ## The claims -/

/-- C1: when the listing of `root` succeeds and is non-empty, and the budget covers
the depth of the tree, `countLinesInDirectory` returns a node whose count is the
sum of `countLinesInFile` over the files reached from `root` through a chain of
entries each accepted by `isValid` on its joined path, one term per listed entry. -/
theorem countLinesInDirectory_total_lines (fs : FS) (fuel : Nat) (root : GoString)
    (es : List DirEntry) (hdepth : fitsDepth fs fuel root = true)
    (hlist : fs.ReadDir root = some es) (hne : es ≠ []) :
    ∃ t, countLinesInDirectory fs fuel root = some (some t) ∧
      t.Lines = ((reachableFiles fs fuel root).map (countLinesInFile fs)).sum ∧
      ∀ f, f ∈ reachableFiles fs fuel root ↔ ReachableFile fs root f := by
  obtain ⟨o, ho⟩ := countLinesInDirectory_total fs fuel root hdepth
  cases o with
  | none =>
    exfalso
    cases fuel with
    | zero => simp [countLinesInDirectory] at ho
    | succ fuel1 =>
      rw [countLinesInDirectory_succ] at ho
      simp only [hlist] at ho
      have hl : ¬ es.length = 0 := fun e => hne (List.length_eq_zero.1 e)
      simp [hl] at ho
  | some t =>
    refine ⟨t, ho, ?_, fun f => mem_reachableFiles_iff fs fuel root _ ho f⟩
    have := countLinesInDirectory_lines fs fuel root _ ho
    simpa using this.symm

theorem countLinesInDirectory_total_lines_witness :
    countLinesInDirectory scenarioFS 2 (go "proj") = some (some scenarioTree) ∧
    reachableFiles scenarioFS 2 (go "proj")
      = [go "proj/a.go", go "proj/b.go", go "proj/sub/c.go"] ∧
    ∃ t, countLinesInDirectory scenarioFS 2 (go "proj") = some (some t) ∧
      t.Lines = ((reachableFiles scenarioFS 2 (go "proj")).map
        (countLinesInFile scenarioFS)).sum ∧
      ∀ f, f ∈ reachableFiles scenarioFS 2 (go "proj")
        ↔ ReachableFile scenarioFS (go "proj") f :=
  ⟨by rfl, by decide,
    countLinesInDirectory_total_lines scenarioFS 2 (go "proj")
      [⟨go "a.go", false⟩, ⟨go "b.go", false⟩, ⟨go "sub", true⟩] (by decide) (by rfl)
      (by simp)⟩

/-- C2: in a tree returned by `countLinesInDirectory`, the count of every directory
node, the root and every nested one, is the sum of the counts of its children. -/
theorem directory_lines_sum (fs : FS) (fuel : Nat) (root : GoString) (t : FileInfo)
    (h : countLinesInDirectory fs fuel root = some (some t)) :
    ∀ n ∈ t :: t.descendants, n.IsDir = true →
      n.Lines = (n.Children.map FileInfo.Lines).sum := by
  intro n hn
  rcases List.mem_cons.1 hn with rfl | hn
  · intro _
    exact countLinesInDirectory_sum fs fuel root n h
  · exact countLinesInDirectory_descendants fs
      (fun n => n.IsDir = true → n.Lines = (n.Children.map FileInfo.Lines).sum)
      (fun p _ _ hd => by simp at hd)
      (fun k p t1 _ h1 _ _ => countLinesInDirectory_sum fs k p t1 h1) fuel root t h n hn

theorem directory_lines_sum_witness :
    countLinesInDirectory scenarioFS 2 (go "proj") = some (some scenarioTree) ∧
    ∀ n ∈ scenarioTree :: scenarioTree.descendants, n.IsDir = true →
      n.Lines = (n.Children.map FileInfo.Lines).sum :=
  ⟨by rfl, directory_lines_sum scenarioFS 2 (go "proj") scenarioTree (by rfl)⟩

/-- C3: `countLinesInFile` returns 0 when the read fails or the content is empty,
and otherwise 1 plus the number of line-feed bytes of the content, whatever the
last byte is and with no special treatment of carriage returns; the content
`a\nb\n` counts 3 and `a\r\nb` counts 2. -/
theorem countLinesInFile_spec :
    (∀ (fs : FS) (filename : GoString),
      countLinesInFile fs filename =
        match fs.ReadFile filename with
        | none => 0
        | some c => if c = [] then 0 else 1 + c.count lf) ∧
    countLinesInFile ⟨fun _ => none, fun _ => some (go "a\nb\n")⟩ (go "f") = 3 ∧
    countLinesInFile ⟨fun _ => none, fun _ => some (go "a\r\nb")⟩ (go "f") = 2 := by
  refine ⟨?_, by decide, by decide⟩
  intro fs filename
  unfold countLinesInFile
  cases h : fs.ReadFile filename with
  | none => simp
  | some c =>
    cases c with
    | nil => simp
    | cons b c => simp [countLoop_eq]

/-- C4, as stated, fails: a path may contain a denied substring in a directory
part and still be accepted, because `isValid` looks at the base name only. -/
theorem isValid_fullPath_counterexample :
    ¬ ∀ (p s : GoString), s ∈ deniedSubstrings → s <:+: p → isValid p = false := by
  intro h
  have h1 := h (go "testdata/main.go") (go "testdata") (by decide)
    ⟨[], go "/main.go", by decide⟩
  exact absurd h1 (by decide)

/-- C4, amended: `isValid` returns false for every path whose base name
(`path.Base` of the path) contains, as a case-sensitive unanchored substring, any
of testdata, changelog, azure, _test, tests, Makefile, LICENSE, LICENCE, VERSION,
docker. -/
theorem isValid_deniedSubstring (p s : GoString) (hs : s ∈ deniedSubstrings)
    (hdoc : s ≠ go "/doc/") (h : s <:+: Base p) : isValid p = false := by
  have hc : Contains (Base p) s = true := (contains_iff _ _).2 h
  simp only [deniedSubstrings, List.mem_cons, List.mem_singleton, List.not_mem_nil,
    or_false] at hs
  rcases hs with rfl | rfl | rfl | rfl | rfl | rfl | rfl | rfl | rfl | rfl | rfl
  all_goals first
    | exact absurd rfl hdoc
    | (unfold isValid; simp only [hc, Bool.true_or, Bool.or_true, if_true, ite_self])

theorem isValid_deniedSubstring_witness :
    isValid (go "src/contests.go") = false :=
  isValid_deniedSubstring (go "src/contests.go") (go "tests") (by decide) (by decide)
    ⟨go "con", go ".go", by decide⟩

/-- C5: `isValid` returns false for every path whose base name ends in one of the
denied extensions; such a suffix is the extension of the base name, the part that
starts at its last dot. -/
theorem isValid_deniedExtension (p pre e : GoString) (he : e ∈ deniedExtensions)
    (hb : Base p = pre ++ e) : Ext (Base p) = e ∧ isValid p = false := by
  obtain ⟨hh, ht⟩ := deniedExtensions_shape e he
  have hext : Ext (Base p) = e := by
    cases e with
    | nil => simp at hh
    | cons a e1 =>
      simp only [List.head?_cons, Option.some.injEq] at hh
      subst hh
      rw [hb]
      exact ext_append pre e1 ht
  refine ⟨hext, ?_⟩
  have hsc : slicesContains deniedExtensions (Ext (Base p)) = true := by
    unfold slicesContains
    rw [List.any_eq_true]
    exact ⟨e, he, by simp [hext]⟩
  unfold isValid
  simp only [hsc, if_true, ite_self]

theorem isValid_deniedExtension_witness :
    (Ext (Base (go "docs/notes.v2.md")) = go ".md" ∧ isValid (go "docs/notes.v2.md") = false) ∧
    isValid (go "docs/notes.v2.MD") = true :=
  ⟨isValid_deniedExtension (go "docs/notes.v2.md") (go "notes.v2") (go ".md") (by decide)
    (by decide), by decide⟩

/-- C6: `isValid` returns false for every path whose base name starts with a dot,
whether the base name is taken of the path as given, as `isValid` does, or of the
cleaned path: hidden files and hidden directories are always rejected. -/
theorem isValid_hidden (p : GoString)
    (h : (Base p).head? = some dot ∨ (Base (Clean p)).head? = some dot) :
    isValid p = false := by
  have h1 : (Base p).head? = some dot := h.elim id (base_clean_hidden p)
  have hp : HasPrefix (Base p) (go ".") = true := by
    rw [hasPrefix_iff]
    cases hb : Base p with
    | nil => simp [hb] at h1
    | cons a t =>
      rw [hb] at h1
      simp only [List.head?_cons, Option.some.injEq] at h1
      subst h1
      exact ⟨t, rfl⟩
  unfold isValid
  simp only [hp, if_true]

theorem isValid_hidden_witness :
    isValid (go "src/.git") = false ∧ isValid (go ".config/x/..") = false :=
  ⟨isValid_hidden (go "src/.git") (Or.inl (by decide)),
   isValid_hidden (go ".config/x/..") (Or.inr (by decide))⟩

/-- C7, as stated, fails: `latest.go` is accepted. -/
theorem isValid_latest_counterexample : ¬ (isValid (go "latest.go") = false) := by
  decide

/-- C7, amended: `latest.go` contains `test` but not `tests`, so the check for
`tests` does not reject it: `isValid` accepts `latest.go`, and likewise every
joined path `dir/latest.go`; a name that does contain `tests`, such as
`contests.go`, is rejected under every directory. -/
theorem isValid_latest (dir : GoString) :
    Contains (go "latest.go") (go "tests") = false ∧
    isValid (go "latest.go") = true ∧
    isValid (Join [dir, go "latest.go"]) = true ∧
    isValid (dir ++ go "/latest.go") = true ∧
    isValid (Join [dir, go "contests.go"]) = false := by
  have hreg1 : Regular (go "latest.go") := by decide
  have hreg2 : Regular (go "contests.go") := by decide
  refine ⟨by decide, by decide, ?_, ?_, ?_⟩
  · rw [isValid_congr _ (go "latest.go")
      ((base_join dir _ hreg1).trans (base_regular _ hreg1).symm)]
    decide
  · have hb : Base (dir ++ go "/latest.go") = go "latest.go" := by
      have := base_append (dir ++ [slash]) (go "latest.go") [] hreg1.1 hreg1.2.1
        (Or.inr (by simp)) (by simp)
      have e : dir ++ go "/latest.go" = dir ++ [slash] ++ go "latest.go" ++ [] := by
        have : go "/latest.go" = [slash] ++ go "latest.go" := by decide
        rw [this]
        simp
      rw [e]
      exact this
    rw [isValid_congr _ (go "latest.go") (hb.trans (base_regular _ hreg1).symm)]
    decide
  · rw [isValid_congr _ (go "contests.go")
      ((base_join dir _ hreg2).trans (base_regular _ hreg2).symm)]
    decide

/-- C8: in a tree returned by `countLinesInDirectory`, every node below the root
has a path accepted by `isValid`, and so has each of its ancestors below the root:
the chain that leads to the node from a child of the root holds accepted paths
only, and it follows the directory listings from the root downward, so that no
node lies under an entry that `isValid` rejects. -/
theorem tree_chains_valid (fs : FS) :
    ∀ (fuel : Nat) (root : GoString) (t : FileInfo),
      countLinesInDirectory fs fuel root = some (some t) →
      (∀ n ∈ t.descendants, isValid n.Path = true ∧ ∃ ch ∈ t.chains, ch.getLast? = some n) ∧
      (∀ ch ∈ t.chains, (∀ a ∈ ch, isValid a.Path = true) ∧ Linked fs root ch) := by
  intro fuel
  induction fuel with
  | zero =>
    intro root t h
    simp [countLinesInDirectory] at h
  | succ fuel ih =>
    intro root t h
    obtain ⟨fuel1, entries, hf, hlist, _, hw⟩ := countLinesInDirectory_some fs _ root t h
    have hf1 : fuel1 = fuel := by omega
    subst hf1
    have hch : ∀ ch ∈ t.chains, (∀ a ∈ ch, isValid a.Path = true) ∧ Linked fs root ch := by
      rw [chains_eq]
      refine walkEntries_inv fs _ root
        (fun r => ∀ ch ∈ chainsList r.Children,
          (∀ a ∈ ch, isValid a.Path = true) ∧ Linked fs root ch) entries
        ?_ ?_ _ t (by simp [chainsList]) hw
      · intro res e he hP hv hd _ ch hmem
        rw [chainsList_concat] at hmem
        simp only [FileInfo.chains, chainsList, List.map_nil, List.mem_append, List.mem_cons,
          List.not_mem_nil, or_false] at hmem
        rcases hmem with hmem | hmem
        · exact hP ch hmem
        · subst hmem
          refine ⟨fun a ha => ?_, ⟨e, by simpa [hlist] using he, rfl, hd.symm⟩, trivial⟩
          simp only [List.mem_singleton] at ha
          subst ha
          exact hv
      · intro res e tmp he hP hv hd hr _ ch hmem
        have htmp := countLinesInDirectory_root fs _ _ tmp hr
        have hlink : ∃ e1 ∈ (fs.ReadDir root).getD [],
            tmp.Path = Join [root, e1.Name] ∧ tmp.IsDir = e1.IsDir :=
          ⟨e, by simpa [hlist] using he, htmp.1, by rw [htmp.2, hd]⟩
        rw [chainsList_concat] at hmem
        simp only [List.mem_append, List.mem_cons, List.mem_map] at hmem
        rcases hmem with hmem | hmem | ⟨ch1, hch1, hmem⟩
        · exact hP ch hmem
        · subst hmem
          refine ⟨fun a ha => ?_, hlink, trivial⟩
          simp only [List.mem_singleton] at ha
          subst ha
          rw [htmp.1]
          exact hv
        · subst hmem
          obtain ⟨h1, h2⟩ := (ih _ tmp hr).2 ch1 hch1
          refine ⟨fun a ha => ?_, hlink, ?_⟩
          · rcases List.mem_cons.1 ha with rfl | ha
            · rw [htmp.1]
              exact hv
            · exact h1 a ha
          · rw [htmp.1]
            exact h2
    refine ⟨fun n hn => ?_, hch⟩
    obtain ⟨ch, hmem, hl⟩ := chains_cover t n hn
    refine ⟨(hch ch hmem).1 n ?_, ch, hmem, hl⟩
    exact List.mem_of_mem_getLast? hl

theorem tree_chains_valid_witness :
    countLinesInDirectory scenarioFS 2 (go "proj") = some (some scenarioTree) ∧
    (∀ n ∈ scenarioTree.descendants,
      isValid n.Path = true ∧ ∃ ch ∈ scenarioTree.chains, ch.getLast? = some n) ∧
    (∀ ch ∈ scenarioTree.chains,
      (∀ a ∈ ch, isValid a.Path = true) ∧ Linked scenarioFS (go "proj") ch) :=
  ⟨by rfl, tree_chains_valid scenarioFS 2 (go "proj") scenarioTree (by rfl)⟩

/-- C9: in a tree returned by `countLinesInDirectory`, every node other than the
root has a positive count; a file node carries the count of its file, which is
therefore readable and not empty, and a directory node is the node the walker
returns for its own path, so its listing succeeds and its total is positive. -/
theorem descendants_lines_pos (fs : FS) (fuel : Nat) (root : GoString) (t : FileInfo)
    (h : countLinesInDirectory fs fuel root = some (some t)) :
    ∀ n ∈ t.descendants, 0 < n.Lines ∧
      (n.IsDir = false → n.Children = [] ∧ n.Lines = countLinesInFile fs n.Path) ∧
      (n.IsDir = true → ∃ k, countLinesInDirectory fs k n.Path = some (some n)) :=
  countLinesInDirectory_descendants fs
    (fun n => 0 < n.Lines ∧
      (n.IsDir = false → n.Children = [] ∧ n.Lines = countLinesInFile fs n.Path) ∧
      (n.IsDir = true → ∃ k, countLinesInDirectory fs k n.Path = some (some n)))
    (fun _ _ hl => ⟨hl, fun _ => ⟨rfl, rfl⟩, fun hd => by simp at hd⟩)
    (fun k p t1 _ h1 hl => ⟨hl, fun hd => by
        rw [(countLinesInDirectory_root fs k p t1 h1).2] at hd
        simp at hd,
      fun _ => ⟨k, by rw [(countLinesInDirectory_root fs k p t1 h1).1]; exact h1⟩⟩)
    fuel root t h

theorem descendants_lines_pos_witness :
    countLinesInDirectory scenarioFS 2 (go "proj") = some (some scenarioTree) ∧
    ∀ n ∈ scenarioTree.descendants, 0 < n.Lines ∧
      (n.IsDir = false → n.Children = [] ∧ n.Lines = countLinesInFile scenarioFS n.Path) ∧
      (n.IsDir = true → ∃ k, countLinesInDirectory scenarioFS k n.Path = some (some n)) :=
  ⟨by rfl, descendants_lines_pos scenarioFS 2 (go "proj") scenarioTree (by rfl)⟩

/-- C10: with a positive budget `countLinesInDirectory` yields `nil` exactly when
the listing of `root` fails or has no entry; on any other listing, once the
budget covers the depth of the tree, it returns a directory node with
`Path = root` and `IsDir = true`, also when the count is 0 (a directory holding
one empty file); and when no node is produced `main` prints nothing. -/
theorem countLinesInDirectory_nil_iff (fs : FS) (fuel : Nat) (root : GoString) :
    (countLinesInDirectory fs (fuel + 1) root = some none ↔
      (fs.ReadDir root = none ∨ fs.ReadDir root = some [])) ∧
    (∀ es, fs.ReadDir root = some es → es ≠ [] → fitsDepth fs (fuel + 1) root = true →
      ∃ t, countLinesInDirectory fs (fuel + 1) root = some (some t) ∧
        t.Path = root ∧ t.IsDir = true) ∧
    (∀ (silent : Bool) (args : List GoString), rootPath args = root →
      (fs.ReadDir root = none ∨ fs.ReadDir root = some []) →
      main fs (fuel + 1) silent args = some []) ∧
    countLinesInDirectory emptyFileFS 1 (go "d") = some (some ⟨go "d", 0, true, []⟩) := by
  have hiff : countLinesInDirectory fs (fuel + 1) root = some none ↔
      (fs.ReadDir root = none ∨ fs.ReadDir root = some []) := by
    rw [countLinesInDirectory_succ]
    cases hr : fs.ReadDir root with
    | none => simp
    | some entries =>
      cases entries with
      | nil => simp
      | cons e es => simp
  refine ⟨hiff, ?_, ?_, by rfl⟩
  · intro es hlist hne hdepth
    obtain ⟨o, ho⟩ := countLinesInDirectory_total fs _ root hdepth
    cases o with
    | none =>
      rcases hiff.1 ho with h | h
      · rw [hlist] at h
        simp at h
      · rw [hlist] at h
        exact absurd (Option.some.inj h) hne
    | some t => exact ⟨t, ho, countLinesInDirectory_root fs _ root t ho⟩
  · intro silent args hargs hnil
    unfold main
    rw [hargs, hiff.2 hnil]

/-- C11, as stated, fails: a root whose listing succeeds but holds no entry yields
no node and no output. -/
theorem main_emptyDir_counterexample :
    emptyDirFS.ReadDir (rootPath [go "d"]) = some [] ∧
    countLinesInDirectory emptyDirFS 1 (rootPath [go "d"]) = some none ∧
    main emptyDirFS 1 false [go "d"] = some [] ∧
    main emptyDirFS 1 true [go "d"] = some [] := by
  refine ⟨by rfl, by rfl, by decide, by decide⟩

/-- C11, amended: for every root path whose listing succeeds and holds at least
one entry, `countLinesInDirectory` returns a directory node for the root once the
budget covers the depth of the tree, and `main` reports it: its count alone in
silent mode, and otherwise a first line made of the root path, `/: ` and the
count, which is 0 when the total is zero. -/
theorem main_reports_root (fs : FS) (fuel : Nat) (args : List GoString) (es : List DirEntry)
    (hlist : fs.ReadDir (rootPath args) = some es) (hne : es ≠ [])
    (hdepth : fitsDepth fs fuel (rootPath args) = true) :
    ∃ t, countLinesInDirectory fs fuel (rootPath args) = some (some t) ∧
      t.Path = rootPath args ∧ t.IsDir = true ∧
      main fs fuel true args = some [fmtInt t.Lines ++ go "\n"] ∧
      ∃ rest, main fs fuel false args
        = some ((rootPath args ++ go "/: " ++ fmtInt t.Lines ++ go "\n") :: rest) := by
  obtain ⟨o, ho⟩ := countLinesInDirectory_total fs fuel _ hdepth
  cases fuel with
  | zero => simp [fitsDepth] at hdepth
  | succ fuel1 =>
    cases o with
    | none =>
      rcases (countLinesInDirectory_eq_nil_iff fs fuel1 _).1 ho with h | h
      · rw [hlist] at h
        simp at h
      · rw [hlist] at h
        exact absurd (Option.some.inj h) hne
    | some t =>
      obtain ⟨hp, hd⟩ := countLinesInDirectory_root fs _ _ t ho
      refine ⟨t, ho, hp, hd, ?_, ?_⟩
      · unfold main
        rw [ho]
        rfl
      · refine ⟨printChildren t.Children ((t.Children.length : Int) - 1) 0 1 (go ""), ?_⟩
        unfold main
        rw [ho]
        simp only [Bool.false_eq_true, if_false]
        rw [printResults_zero, hp, hd]
        have h0 : go "" = [] := by decide
        simp [h0]

theorem main_reports_root_witness :
    main emptyFileFS 1 false [go "d"] = some [go "d/: 0\n"] ∧
    ∃ t, countLinesInDirectory emptyFileFS 1 (rootPath [go "d"]) = some (some t) ∧
      t.Path = rootPath [go "d"] ∧ t.IsDir = true ∧
      main emptyFileFS 1 true [go "d"] = some [fmtInt t.Lines ++ go "\n"] ∧
      ∃ rest, main emptyFileFS 1 false [go "d"]
        = some ((rootPath [go "d"] ++ go "/: " ++ fmtInt t.Lines ++ go "\n") :: rest) :=
  ⟨by decide, main_reports_root emptyFileFS 1 [go "d"] [⟨go "e.go", false⟩] (by rfl) (by simp)
    (by decide)⟩

/-- C12, as stated, fails: a root that holds one empty file has a total of zero,
and yet its node is built and printed. -/
theorem main_zeroTotal_counterexample :
    countLinesInDirectory emptyFileFS 1 (rootPath [go "d"])
      = some (some ⟨go "d", 0, true, []⟩) ∧
    main emptyFileFS 1 false [go "d"] = some [go "d/: 0\n"] ∧
    main emptyFileFS 1 true [go "d"] = some [go "0\n"] := by
  refine ⟨by rfl, by decide, by decide⟩

/-- C12, amended: `main` produces no output at all exactly when the root cannot be
read or its listing is empty; a node with zero total lines never appears below
the root of a returned tree, while the root node itself is built and reported
whenever its listing is not empty. -/
theorem main_no_output_iff (fs : FS) (fuel : Nat) (silent : Bool) (args : List GoString) :
    (main fs (fuel + 1) silent args = some [] ↔
      (fs.ReadDir (rootPath args) = none ∨ fs.ReadDir (rootPath args) = some [])) ∧
    (∀ t, countLinesInDirectory fs (fuel + 1) (rootPath args) = some (some t) →
      (∀ n ∈ t.descendants, 0 < n.Lines) ∧
      ∃ line rest, main fs (fuel + 1) silent args = some (line :: rest)) := by
  have hsome : ∀ t, countLinesInDirectory fs (fuel + 1) (rootPath args) = some (some t) →
      ∃ line rest, main fs (fuel + 1) silent args = some (line :: rest) := by
    intro t ht
    unfold main
    rw [ht]
    cases silent with
    | true => exact ⟨_, [], rfl⟩
    | false =>
      simp only [Bool.false_eq_true, if_false]
      rw [printResults_zero]
      exact ⟨_, _, rfl⟩
  refine ⟨⟨fun h => ?_, fun h => ?_⟩, fun t ht => ⟨?_, hsome t ht⟩⟩
  · cases ho : countLinesInDirectory fs (fuel + 1) (rootPath args) with
    | none =>
      unfold main at h
      rw [ho] at h
      simp at h
    | some o =>
      cases o with
      | none => exact (countLinesInDirectory_eq_nil_iff fs fuel _).1 ho
      | some t =>
        obtain ⟨line, rest, hl⟩ := hsome t ho
        rw [hl] at h
        simp at h
  · unfold main
    rw [(countLinesInDirectory_eq_nil_iff fs fuel _).2 h]
  · exact countLinesInDirectory_descendants fs (fun n => 0 < n.Lines)
      (fun _ _ hl => hl) (fun _ _ _ _ _ hl => hl) _ _ t ht

/-- C13, as stated, fails: a root whose only entry is a directory that cannot be
listed is printed with count 0, and nothing is printed once the entry is removed. -/
theorem main_removeEntry_counterexample :
    loneFS.ReadDir (Join [go "r", go "locked"]) = none ∧
    main loneFS 2 false [go "r"] = some [go "r/: 0\n"] ∧
    main (removeEntry loneFS (go "r") (go "locked")) 2 false [go "r"] = some [] := by
  refine ⟨by rfl, by decide, by decide⟩

/-- C13, amended: if an entry of some directory cannot be read and is not the only
entry of the root directory, the output of `main` is the same on the file system
with that entry removed. -/
theorem main_removeEntry (fs : FS) (fuel : Nat) (silent : Bool) (args : List GoString)
    (d name : GoString) (out : List GoString) (hun : Unreadable fs d name)
    (hroot : rootPath args = d → ∃ e ∈ (fs.ReadDir d).getD [], e.Name ≠ name)
    (hrun : main fs fuel silent args = some out) :
    main (removeEntry fs d name) fuel silent args = some out := by
  unfold main at hrun ⊢
  cases ho : countLinesInDirectory fs fuel (rootPath args) with
  | none => simp [ho] at hrun
  | some o =>
    obtain ⟨o1, h1, _, heq⟩ := countLinesInDirectory_removeEntry fs d name hun fuel _ o ho
    rw [heq hroot] at h1
    rw [ho] at hrun
    rw [h1]
    exact hrun

theorem main_removeEntry_witness :
    Unreadable lockedFS (go "r") (go "locked") ∧
    main lockedFS 2 false [go "r"] = some [go "r/: 2\n", go "└── a.go: 2\n"] ∧
    main (removeEntry lockedFS (go "r") (go "locked")) 2 false [go "r"]
      = some [go "r/: 2\n", go "└── a.go: 2\n"] :=
  have hun : Unreadable lockedFS (go "r") (go "locked") := by
    intro e he hname
    exact ⟨fun _ => by rw [hname]; rfl, fun _ => by rw [hname]; rfl⟩
  ⟨hun, by decide,
    main_removeEntry lockedFS 2 false [go "r"] (go "r") (go "locked") _ hun
      (fun _ => ⟨⟨go "a.go", false⟩, List.mem_cons_self _ _, by decide⟩) (by decide)⟩

/-- C14: for every tree, `printResults` at level 0 writes first the line of the
root, its path as given with no segment and no glyph, then `/: ` (for a
directory) and its count; and then, for every node at depth 1 or more, one
segment for each of its ancestors at depths 1 to d-1, top-down (four spaces for
an ancestor that was the last child at its level, a bar and three spaces
otherwise), the corner glyph if the node is the last of its siblings and the tee
glyph otherwise, the base name of its path, `/` if it is a directory, `: ` and
its count in decimal. -/
theorem printResults_lines (t : FileInfo) (isLast : Bool) :
    printResults t 0 (go "") isLast =
      (t.Path ++ (if t.IsDir then go "/: " else go ": ") ++ fmtInt t.Lines ++ go "\n")
        :: t.flaggedChains.map chainLine ∧
    t.flaggedChains.map (List.map Prod.snd) = t.chains ∧
    printResults sampleTree 0 (go "") true =
      [go "r/: 3\n", go "├── a/: 1\n", go "│   └── f: 1\n", go "└── g: 2\n"] :=
  ⟨printResults_zero_chains t isLast, flaggedChains_chains t, by decide⟩

/-- C15: for a root directory node with path `p` and total `t` whose children are
the file nodes `init ++ [last]` (one at least), `printResults` at level 0 writes
exactly one line more than there are children: `p/: t`, then a tee line with the
base name and the count of each child but the last, in stored order, then a
corner line for the last child. -/
theorem printResults_files (p : GoString) (total : Nat) (init : List FileInfo)
    (last : FileInfo) (hfiles : ∀ c ∈ init ++ [last], c.IsDir = false ∧ c.Children = []) :
    printResults ⟨p, total, true, init ++ [last]⟩ 0 (go "") true =
      (p ++ go "/: " ++ fmtInt total ++ go "\n")
        :: (init.map (fun c =>
              go "├── " ++ Base c.Path ++ go ": " ++ fmtInt c.Lines ++ go "\n")
            ++ [go "└── " ++ Base last.Path ++ go ": " ++ fmtInt last.Lines ++ go "\n"]) ∧
    (printResults ⟨p, total, true, init ++ [last]⟩ 0 (go "") true).length
      = (init ++ [last]).length + 1 := by
  have hnil : go "" = [] := by decide
  have h : printResults ⟨p, total, true, init ++ [last]⟩ 0 (go "") true =
      (p ++ go "/: " ++ fmtInt total ++ go "\n")
        :: (init.map (fun c =>
              go "├── " ++ Base c.Path ++ go ": " ++ fmtInt c.Lines ++ go "\n")
            ++ [go "└── " ++ Base last.Path ++ go ": " ++ fmtInt last.Lines ++ go "\n"]) := by
    rw [printResults_zero]
    simp only [if_true]
    rw [printChildren_files last (hfiles last (by simp)) init _ 0
      (fun c hc => hfiles c (by simp [hc])) (by simp)]
    simp [hnil]
  refine ⟨h, ?_⟩
  rw [h]
  simp

theorem printResults_files_witness :
    printResults ⟨go "root", 3, true, [fileX] ++ [fileY]⟩ 0 (go "") true
      = [go "root/: 3\n", go "├── x: 1\n", go "└── y: 2\n"] ∧
    (printResults ⟨go "root", 3, true, [fileX] ++ [fileY]⟩ 0 (go "") true
      = (go "root" ++ go "/: " ++ fmtInt 3 ++ go "\n")
        :: ([fileX].map (fun c =>
              go "├── " ++ Base c.Path ++ go ": " ++ fmtInt c.Lines ++ go "\n")
            ++ [go "└── " ++ Base fileY.Path ++ go ": " ++ fmtInt fileY.Lines ++ go "\n"]) ∧
      (printResults ⟨go "root", 3, true, [fileX] ++ [fileY]⟩ 0 (go "") true).length
        = ([fileX] ++ [fileY]).length + 1) :=
  ⟨by decide, printResults_files (go "root") 3 [fileX] fileY (by simp [fileX, fileY])⟩

/-- C16: in silent mode, whenever `countLinesInDirectory` returns a node for the
root path, the whole output of `main` is one write: the count of the root node
in decimal digits followed by a line feed, and nothing else. -/
theorem main_silent (fs : FS) (fuel : Nat) (args : List GoString) (t : FileInfo)
    (h : countLinesInDirectory fs fuel (rootPath args) = some (some t)) :
    main fs fuel true args = some [fmtInt t.Lines ++ go "\n"] ∧
    (∀ b ∈ fmtInt t.Lines, 48 ≤ b ∧ b ≤ 57) ∧
    (fmtInt t.Lines ++ go "\n").count lf = 1 := by
  refine ⟨?_, fmtInt_digits t.Lines, ?_⟩
  · unfold main
    rw [h]
    rfl
  · rw [List.count_append, fmtInt_count_lf]
    decide

theorem main_silent_witness :
    countLinesInDirectory scenarioFS 2 (rootPath [go "proj"]) = some (some scenarioTree) ∧
    main scenarioFS 2 true [go "proj"] = some [go "5\n"] ∧
    (main scenarioFS 2 true [go "proj"] = some [fmtInt scenarioTree.Lines ++ go "\n"] ∧
      (∀ b ∈ fmtInt scenarioTree.Lines, 48 ≤ b ∧ b ≤ 57) ∧
      (fmtInt scenarioTree.Lines ++ go "\n").count lf = 1) :=
  ⟨by rfl, by decide, main_silent scenarioFS 2 [go "proj"] scenarioTree (by rfl)⟩

/-- C17: for every directory node of a returned tree, the root and every nested
one, the paths of its children form a subsequence of the entries of its listing,
each joined with the path of the directory, in the order of the listing: no
child is moved and no entry is used twice. -/
theorem children_follow_listing (fs : FS) (fuel : Nat) (root : GoString) (t : FileInfo)
    (h : countLinesInDirectory fs fuel root = some (some t)) :
    ∀ n ∈ t :: t.descendants, n.IsDir = true →
      ∃ es, fs.ReadDir n.Path = some es ∧
        (n.Children.map FileInfo.Path).Sublist (es.map (fun e => Join [n.Path, e.Name])) := by
  intro n hn
  rcases List.mem_cons.1 hn with rfl | hn
  · intro _
    exact countLinesInDirectory_children fs fuel root n h
  · exact countLinesInDirectory_descendants fs
      (fun n => n.IsDir = true → ∃ es, fs.ReadDir n.Path = some es ∧
        (n.Children.map FileInfo.Path).Sublist (es.map (fun e => Join [n.Path, e.Name])))
      (fun p _ _ hd => by simp at hd)
      (fun k p t1 _ h1 _ _ => countLinesInDirectory_children fs k p t1 h1) fuel root t h n hn

theorem children_follow_listing_witness :
    countLinesInDirectory scenarioFS 2 (go "proj") = some (some scenarioTree) ∧
    scenarioTree.Children.map FileInfo.Path = [go "proj/a.go", go "proj/sub"] ∧
    ∀ n ∈ scenarioTree :: scenarioTree.descendants, n.IsDir = true →
      ∃ es, scenarioFS.ReadDir n.Path = some es ∧
        (n.Children.map FileInfo.Path).Sublist (es.map (fun e => Join [n.Path, e.Name])) :=
  ⟨by rfl, by rfl, children_follow_listing scenarioFS 2 (go "proj") scenarioTree (by rfl)⟩

/-- C18, as stated, fails: a root that holds one file whose name has a line feed
in it is a tree of 2 nodes, and the 2 writes of `printResults` make 3 lines. -/
theorem printResults_preorder_counterexample :
    isValid (Join [go "r", go "a\nb.go"]) = true ∧
    countLinesInDirectory lfNameFS 1 (go "r") = some (some lfNameTree) ∧
    printResults lfNameTree 0 (go "") true = [go "r/: 1\n", go "└── a\nb.go: 1\n"] ∧
    (lfNameTree :: lfNameTree.descendants).length = 2 ∧
    outputLines (printResults lfNameTree 0 (go "") true) = 3 := by
  refine ⟨by decide, by rfl, by decide, by rfl, by decide⟩

/-- C18, amended: for every tree, `printResults` makes one write per node, in
pre-order: the write of the node itself first, then the whole output of each
child's subtree in the order the children are stored, the last child with the
is-last flag; so the number of writes is the number of nodes. Every write ends
with a line feed; when neither the prefix nor a displayed name (the root path,
the base names of the nodes below) holds a line feed, every write is exactly one
line and the number of output lines is the number of nodes. -/
theorem printResults_preorder (t : FileInfo) (level : Nat) (pfx : GoString) (isLast : Bool) :
    (∃ line childPfx,
      printResults ⟨t.Path, t.Lines, t.IsDir, []⟩ level pfx isLast = [line] ∧
      printResults t level pfx isLast =
        line :: t.Children.enum.flatMap (fun ic =>
          printResults ic.2 (level + 1) childPfx
            (decide ((ic.1 : Int) = (t.Children.length : Int) - 1)))) ∧
    (printResults t level pfx isLast).length = (t :: t.descendants).length ∧
    (∀ w ∈ printResults t level pfx isLast, w.getLast? = some lf) ∧
    (lf ∉ pfx → lf ∉ (if level = 0 then t.Path else Base t.Path) →
      (∀ n ∈ t.descendants, lf ∉ Base n.Path) →
      (∀ w ∈ printResults t level pfx isLast, w.count lf = 1) ∧
      outputLines (printResults t level pfx isLast) = (t :: t.descendants).length) := by
  have hlen : (printResults t level pfx isLast).length = (t :: t.descendants).length := by
    rw [printResults_length, List.length_cons]
    omega
  refine ⟨?_, hlen, ?_⟩
  · obtain ⟨line, childPfx, h1, h2⟩ := printResults_own t level pfx isLast
    refine ⟨line, childPfx, h1, ?_⟩
    rw [h2, printChildren_enum]
    rfl
  · have key : ∀ w ∈ printResults t level pfx isLast, w.getLast? = some lf ∧
        (lf ∉ pfx → lf ∉ (if level = 0 then t.Path else Base t.Path) →
          (∀ n ∈ t.descendants, lf ∉ Base n.Path) → w.count lf = 1) := by
      cases level with
      | zero =>
        intro w hw
        rw [printResults_zero] at hw
        rcases List.mem_cons.1 hw with rfl | hw
        · refine ⟨(line_lf _ _).1, fun hp hb _ => (line_lf _ _).2 ?_⟩
          have hsep : lf ∉ (if t.IsDir = true then go "/: " else go ": ") := by
            cases t.IsDir <;> decide
          simp only [List.mem_append, not_or]
          exact ⟨⟨hp, by simpa using hb⟩, hsep⟩
        · obtain ⟨h1, h2⟩ := printChildren_lf t.Children _ 0 0 _ w hw
          exact ⟨h1, fun _ _ hd => h2 (by decide) (by rwa [descendants_eq] at hd)⟩
      | succ level =>
        intro w hw
        obtain ⟨h1, h2⟩ := printResults_lf t level pfx isLast w hw
        exact ⟨h1, fun hp hb hd => h2 hp (by simpa using hb) hd⟩
    refine ⟨fun w hw => (key w hw).1, fun hp hb hd => ?_⟩
    have hone : ∀ w ∈ printResults t level pfx isLast, w.count lf = 1 :=
      fun w hw => (key w hw).2 hp hb hd
    exact ⟨hone, (outputLines_eq_length _ hone).trans hlen⟩

theorem printResults_preorder_witness :
    printResults sampleTree 0 (go "") true =
      [go "r/: 3\n", go "├── a/: 1\n", go "│   └── f: 1\n", go "└── g: 2\n"] ∧
    (sampleTree :: sampleTree.descendants).length = 4 ∧
    (∀ w ∈ printResults sampleTree 0 (go "") true, w.count lf = 1) ∧
    outputLines (printResults sampleTree 0 (go "") true)
      = (sampleTree :: sampleTree.descendants).length :=
  have h := (printResults_preorder sampleTree 0 (go "") true).2.2.2 (by decide) (by decide)
    (by
      intro n hn
      have hd : sampleTree.descendants
          = [⟨go "r/a", 1, true, [⟨go "r/a/f", 1, false, []⟩]⟩, ⟨go "r/a/f", 1, false, []⟩,
             ⟨go "r/g", 2, false, []⟩] := rfl
      rw [hd] at hn
      simp only [List.mem_cons, List.mem_singleton, List.not_mem_nil, or_false] at hn
      rcases hn with rfl | rfl | rfl <;> decide)
  ⟨by decide, by rfl, h.1, h.2⟩

/-- C19: for every directory path `root` and every entry name that is non-empty,
holds no `/` and is neither `.` nor `..`, `isValid` gives the joined path
`path.Join(root, name)` the verdict it gives `name` alone. -/
theorem isValid_join (root name : GoString) (hne : name ≠ []) (hs : slash ∉ name)
    (hd : name ≠ go ".") (hdd : name ≠ go "..") :
    isValid (Join [root, name]) = isValid name := by
  have hreg : Regular name := ⟨hne, hs, hd, hdd⟩
  exact isValid_congr _ _ ((base_join root name hreg).trans (base_regular name hreg).symm)

theorem isValid_join_witness :
    isValid (Join [go "/home/u/tests/.cache", go "main.go"]) = isValid (go "main.go") ∧
    isValid (go "main.go") = true ∧ isValid (go "/home/u/tests/.cache") = false :=
  ⟨isValid_join (go "/home/u/tests/.cache") (go "main.go") (by decide) (by decide) (by decide)
    (by decide), by decide, by decide⟩

end Cloc
